import Mathlib

/-!
Tic-tac-toe (`src/main.js`): board, players and game loop.

A shallow embedding of the JavaScript program.  Mutable objects become explicit
state passing: a method that may write to `this.board` returns the new board
next to its result.  The console and the two sources of external input (lines
typed on standard input, values drawn from `Math.random`) are gathered in a
`World` that is threaded through every asynchronous call.  A promise that never
resolves is `none`.
-/

namespace TicTacToe

/-! ## Data model -/

/-- The two player symbols, the strings `"X"` and `"O"` that `main.js` gives its
players.  Both are non-empty strings, hence truthy. -/
inductive Symbol where
  | X
  | O
  deriving DecidableEq, Repr, Fintype

/-- One element of the array `this.board`: `none` is JavaScript `null`. -/
abbrev Cell := Option Symbol

/-- The class `Board`; its single field is the array `this.board`. -/
structure Board where
  board : List Cell
  deriving DecidableEq, Repr

/-- The constructor `new Board()`: `Array(9).fill(null)`. -/
def Board.new : Board := ⟨List.replicate 9 none⟩

/-- The property read `this.board[i]` for an integer `i`.  The outer `none` is
JavaScript `undefined`, the value of an index the array does not have. -/
def Board.get (b : Board) (i : Int) : Option Cell :=
  if 0 ≤ i then b.board[i.toNat]? else none

/-- JavaScript truthiness of the value of `this.board[i]`: `undefined` and
`null` are falsy, a symbol is truthy. -/
def truthy : Option Cell → Bool
  | some (some _) => true
  | _ => false

/-- The method `Board.makeMove(position, symbol)`: the returned boolean and the board
afterwards.  The write happens only when the read gave `null`, so only at an
index the array has. -/
def Board.makeMove (b : Board) (position : Int) (symbol : Symbol) : Bool × Board :=
  if b.get position = some none then
    (true, ⟨b.board.set position.toNat (some symbol)⟩)
  else
    (false, b)

/-- The constant `winPatterns` of `Board.checkWin`. -/
def winPatterns : List (Int × Int × Int) :=
  [(0, 1, 2), (3, 4, 5), (6, 7, 8),
   (0, 3, 6), (1, 4, 7), (2, 5, 8),
   (0, 4, 8), (2, 4, 6)]

/-- The `for (const pattern of winPatterns)` loop of `Board.checkWin` over the
patterns still to be examined; `none` is the `null` returned after the loop. -/
def Board.checkWinLoop (b : Board) : List (Int × Int × Int) → Option Symbol
  | [] => none
  | (a, b', c) :: rest =>
    if truthy (b.get a) && b.get a == b.get b' && b.get a == b.get c then
      (b.get a).join
    else
      b.checkWinLoop rest

/-- The method `Board.checkWin()`. -/
def Board.checkWin (b : Board) : Option Symbol :=
  b.checkWinLoop winPatterns

/-- The method `Board.isFull()`: `this.board.every(cell => cell !== null)`. -/
def Board.isFull (b : Board) : Bool :=
  b.board.all (fun cell => cell != none)

/-! ## The world outside the program -/

/-- The lines written by `console.log`, one constructor per call site. -/
inductive Msg where
  /-- The opening line "Starting Tic Tac Toe game!". -/
  | starting
  /-- The grid printed by `Board.display()`, as the cells it shows. -/
  | display (cells : List Cell)
  /-- The prompt of `HumanPlayer.takeTurn`: "... turn (...). Please enter a position (0-8):" -/
  | humanTurn (name : String) (symbol : Symbol)
  /-- The line "Position already taken, try again.". -/
  | positionTaken
  /-- The line "Invalid input. Please enter a position between 0 and 8.". -/
  | invalidInput
  /-- The first line of `AIPlayer.takeTurn`: "... turn (...)." -/
  | aiTurn (name : String) (symbol : Symbol)
  /-- The line "... chose position: ..." of `AIPlayer.takeTurn`. -/
  | aiChose (name : String) (move : Int)
  /-- The line "... wins!". -/
  | wins (winner : Symbol)
  /-- The line announcing a draw. -/
  | draw
  deriving DecidableEq, Repr

/-- Everything outside the program that a run reads or writes.
* `stdin`: the lines not yet handed to a `readline.question` callback;
* `random`: the values `Math.floor(Math.random() * 9)` will take, next first
  (`Math.random()` lies in `[0, 1)`, so each is one of `0..8`);
* `out`: the console output so far, newest message first. -/
structure World where
  stdin : List String
  random : List (Fin 9)
  out : List Msg
  deriving DecidableEq, Repr

/-- The call `console.log(msg)`. -/
def World.log (w : World) (msg : Msg) : World :=
  { w with out := msg :: w.out }

/-! ## `parseInt` -/

/-- The characters `parseInt` skips at the start of its argument: the
ECMAScript white-space and line-terminator code points. -/
def isStrWhiteSpaceChar (c : Char) : Bool :=
  decide (c.toNat ∈ [0x9, 0xA, 0xB, 0xC, 0xD, 0x20, 0xA0, 0x1680, 0x2028, 0x2029,
    0x202F, 0x205F, 0x3000, 0xFEFF]) || (decide (0x2000 ≤ c.toNat) && decide (c.toNat ≤ 0x200A))

/-- The value of `c` as a digit of radix `R`, if it is one. -/
def radixDigit (R : Nat) (c : Char) : Option Nat :=
  let v : Option Nat :=
    if 48 ≤ c.toNat ∧ c.toNat ≤ 57 then some (c.toNat - 48)
    else if 97 ≤ c.toNat ∧ c.toNat ≤ 122 then some (c.toNat - 97 + 10)
    else if 65 ≤ c.toNat ∧ c.toNat ≤ 90 then some (c.toNat - 65 + 10)
    else none
  v.filter (fun d => decide (d < R))

/-- The built-in `parseInt(string)` called with one argument: leading white
space is skipped, a sign is read, a `0x`/`0X` prefix selects radix 16 (radix 10
otherwise), and the longest run of digits is converted; what follows the digits
is ignored.  `none` is `NaN` (no digit).  The result is the mathematical
integer: the program only compares it with `0` and `8` and uses it as an index
when it lies between them, where rounding to a double changes nothing (and
`-0` indexes and compares as `0`). -/
def parseInt (string : String) : Option Int :=
  let S := string.toList.dropWhile isStrWhiteSpaceChar
  let sign : Int := if S.head? = some '-' then -1 else 1
  let S := if S.head? = some '+' ∨ S.head? = some '-' then S.tail else S
  let RS : Nat × List Char :=
    match S with
    | '0' :: 'x' :: rest => (16, rest)
    | '0' :: 'X' :: rest => (16, rest)
    | _ => (10, S)
  let Z := RS.2.takeWhile (fun c => (radixDigit RS.1 c).isSome)
  if Z.isEmpty then none
  else some (sign * (Z.foldl (fun acc c => acc * RS.1 + (radixDigit RS.1 c).getD 0) 0 : Nat))

/-! ## Players -/

/-- An object usable as a player by `Game`: the fields of the class `Player`
and its method `takeTurn(board)`.  The method receives the shared board and the
world and, when its promise resolves, yields the resolved value together with
the board and the world as it left them; `none` is a promise that never
resolves. -/
structure Player where
  name : String
  symbol : Symbol
  takeTurn : Board → World → Option (Int × Board × World)

/-- The closure `askForMove` of `HumanPlayer.takeTurn`, by recursion on the
lines still to come from standard input: it prints the prompt, takes the next
line, and either resolves or prints an error and calls itself again.  With no
line left the callback of `readline.question` is never called. -/
def HumanPlayer.askForMove (name : String) (symbol : Symbol) :
    List String → List (Fin 9) → List Msg → Board → Option (Int × Board × World)
  | [], _, _, _ => none
  | line :: rest, random, out, board =>
    let out := Msg.humanTurn name symbol :: out
    match parseInt line with
    | some move =>
      if 0 ≤ move ∧ move ≤ 8 then
        if (board.makeMove move symbol).1 then
          some (move, (board.makeMove move symbol).2, ⟨rest, random, out⟩)
        else
          HumanPlayer.askForMove name symbol rest random (Msg.positionTaken :: out) board
      else
        HumanPlayer.askForMove name symbol rest random (Msg.invalidInput :: out) board
    | none =>
      HumanPlayer.askForMove name symbol rest random (Msg.invalidInput :: out) board

/-- The method `HumanPlayer.takeTurn(board)`. -/
def HumanPlayer.takeTurn (name : String) (symbol : Symbol) (board : Board) (w : World) :
    Option (Int × Board × World) :=
  HumanPlayer.askForMove name symbol w.stdin w.random w.out board

/-- The constructor `new HumanPlayer(name, symbol)`. -/
def HumanPlayer (name : String) (symbol : Symbol) : Player :=
  ⟨name, symbol, HumanPlayer.takeTurn name symbol⟩

/-- The `do ... while (!board.makeMove(move, this.symbol))` loop of
`AIPlayer.takeTurn`, by recursion on the random values still to come; it ends
at the first one for which `makeMove` returns true.  A list used up without a
success is a loop that has not ended yet. -/
def AIPlayer.findMove (symbol : Symbol) : List (Fin 9) → Board → Option (Int × Board × List (Fin 9))
  | [], _ => none
  | r :: rest, board =>
    let move : Int := (r.val : Int)
    if (board.makeMove move symbol).1 then
      some (move, (board.makeMove move symbol).2, rest)
    else
      AIPlayer.findMove symbol rest board

/-- The method `AIPlayer.takeTurn(board)`; the one-second timer only delays the callback. -/
def AIPlayer.takeTurn (name : String) (symbol : Symbol) (board : Board) (w : World) :
    Option (Int × Board × World) :=
  let w := w.log (Msg.aiTurn name symbol)
  match AIPlayer.findMove symbol w.random board with
  | none => none
  | some (move, board, random) =>
    some (move, board, ({ w with random := random }).log (Msg.aiChose name move))

/-- The constructor `new AIPlayer(name, symbol)`. -/
def AIPlayer (name : String) (symbol : Symbol) : Player :=
  ⟨name, symbol, AIPlayer.takeTurn name symbol⟩

/-! ## Game -/

/-- The class `Game`. -/
structure Game where
  board : Board
  players : List Player
  currentPlayerIndex : Int

/-- The constructor `new Game(player1, player2)`. -/
def Game.new (player1 player2 : Player) : Game :=
  ⟨Board.new, [player1, player2], 0⟩

/-- The read `this.players[this.currentPlayerIndex]`. -/
def Game.currentPlayer (g : Game) : Option Player :=
  if 0 ≤ g.currentPlayerIndex then g.players[g.currentPlayerIndex.toNat]? else none

/-- The state of a call of `Game.start`: the game object, the local `winner`,
the world, and a history (not a program variable) of the completed turns,
newest first, each with the index of the player that was asked and the value
its `takeTurn` resolved with. -/
structure Run where
  game : Game
  winner : Option Symbol
  world : World
  turns : List (Int × Int)

/-- The loop condition `!winner && !this.board.isFull()`. -/
def Run.continues (r : Run) : Bool :=
  !r.winner.isSome && !r.game.board.isFull

/-- One pass through the body of the `while` loop of `Game.start`. -/
def Run.turn (r : Run) : Option Run :=
  let w := r.world.log (Msg.display r.game.board.board)
  match r.game.currentPlayer with
  | none => none
  | some currentPlayer =>
    match currentPlayer.takeTurn r.game.board w with
    | none => none
    | some (move, board, w) =>
      some { game := { r.game with board := board,
                                   currentPlayerIndex := 1 - r.game.currentPlayerIndex }
             winner := board.checkWin
             world := w
             turns := (r.game.currentPlayerIndex, move) :: r.turns }

/-- The `while` loop of `Game.start`, run for at most `fuel` passes; `none`
when a turn never resolves or the passes are used up before the loop ends. -/
def Game.loop : Nat → Run → Option Run
  | 0, r => if r.continues then none else some r
  | fuel + 1, r =>
    if r.continues then
      match r.turn with
      | none => none
      | some r => Game.loop fuel r
    else some r

/-- The method `Game.start()`, with at most `fuel` passes through its loop: the state
after the final message has been printed. -/
def Game.start (g : Game) (fuel : Nat) (w : World) : Option Run :=
  match Game.loop fuel ⟨g, none, w.log Msg.starting, []⟩ with
  | none => none
  | some r =>
    let w := r.world.log (Msg.display r.game.board.board)
    some { r with world := w.log (match r.winner with
                                  | some winner => Msg.wins winner
                                  | none => Msg.draw) }

/-- The players constructed at the end of `main.js`. -/
def player1 : Player := AIPlayer "AI Player" Symbol.X

/-- The second player constructed at the end of `main.js`. -/
def player2 : Player := HumanPlayer "Human Player" Symbol.O

/-- The game constructed at the end of `main.js`: `new Game(player1, player2)`. -/
def game : Game := Game.new player1 player2

/-- What a finished run reported: its last console message. -/
def Run.reported (r : Run) : Option Msg := r.world.out.head?

/-- The number of turns a run took, that is, of `takeTurn` calls awaited. -/
def Run.turnCount (r : Run) : Nat := r.turns.length

/-- The two error messages of `HumanPlayer.takeTurn`, one printed per rejected
line. -/
def Msg.isRejection : Msg → Bool
  | Msg.positionTaken => true
  | Msg.invalidInput => true
  | _ => false

/-- The prompt of `HumanPlayer.takeTurn`, for any player. -/
def Msg.isPrompt : Msg → Bool
  | Msg.humanTurn _ _ => true
  | _ => false

/-- The board after the calls `makeMove(p, s)` for the pairs of the list, in
order, whatever each call returned. -/
def Board.makeMoves (b : Board) : List (Int × Symbol) → Board
  | [] => b
  | (p, s) :: rest => (b.makeMove p s).2.makeMoves rest

/-- The three cells of the triple `t` all hold the symbol `s`. -/
def Board.lineOf (b : Board) (s : Symbol) (t : Int × Int × Int) : Prop :=
  b.get t.1 = some (some s) ∧ b.get t.2.1 = some (some s) ∧ b.get t.2.2 = some (some s)

instance (b : Board) (s : Symbol) (t : Int × Int × Int) : Decidable (b.lineOf s t) := by
  unfold Board.lineOf; infer_instance

/-- The contract of `takeTurn`: a call that resolves with `m` has applied
`makeMove(m, symbol)` once, successfully, with the player's own symbol, and has
done nothing else to the board. -/
def Player.MovesOnce (p : Player) : Prop :=
  ∀ b w m b' w', p.takeTurn b w = some (m, b', w') → b.makeMove m p.symbol = (true, b')

/-- The player's `takeTurn` resolves whenever it is called on a board of 9 cells
that is not full. -/
def Player.AlwaysResolves (p : Player) : Prop :=
  ∀ b w, b.board.length = 9 → b.isFull = false → (p.takeTurn b w).isSome = true

/-- The state in which `Game.start` reaches its `while` loop for the first time:
`winner` is `null` and the opening line has been printed. -/
def Run.init (g : Game) (w : World) : Run :=
  ⟨g, none, w.log Msg.starting, []⟩

/-- The state of `Game.start` at the head of its `while` loop after `n` passes
through the body, counted from the state `r`; `none` when the loop does not make
`n` passes (it ended before, or a turn did not resolve). -/
def Run.after (r : Run) : Nat → Option Run
  | 0 => some r
  | n + 1 =>
    match Run.after r n with
    | none => none
    | some r' => if r'.continues then r'.turn else none

/-- The number of calls that returned true when `makeMove(p, s)` is called for
the pairs of the list, in order. -/
def Board.successes (b : Board) : List (Int × Symbol) → Nat
  | [] => 0
  | (p, s) :: rest =>
    (if (b.makeMove p s).1 then 1 else 0) + (b.makeMove p s).2.successes rest

/-- The number of non-Empty cells. -/
def Board.occupied (b : Board) : Nat :=
  b.board.countP (fun cell => cell != none)

/-- A call of one of the methods of the class `Board`. -/
inductive BoardCall where
  | makeMove (position : Int) (symbol : Symbol)
  | checkWin
  | isFull
  | display
  deriving DecidableEq, Repr

/-- The board after a method call.  Only `makeMove` assigns to `this.board`; the
bodies of `checkWin`, `isFull` and `display` only read it. -/
def Board.call (b : Board) : BoardCall → Board
  | BoardCall.makeMove position symbol => (b.makeMove position symbol).2
  | BoardCall.checkWin => b
  | BoardCall.isFull => b
  | BoardCall.display => b

/-- The board after a sequence of method calls. -/
def Board.calls (b : Board) : List BoardCall → Board
  | [] => b
  | c :: rest => (b.call c).calls rest

/-- The `makeMove` calls of a sequence of method calls. -/
def BoardCall.moves : List BoardCall → List (Int × Symbol)
  | [] => []
  | BoardCall.makeMove position symbol :: rest => (position, symbol) :: BoardCall.moves rest
  | _ :: rest => BoardCall.moves rest

/-- An automated player whose `Math.random` is replaced by a stub: on every call
of `takeTurn` the values `samples` are drawn afresh, in order. -/
def AIPlayer.withSamples (name : String) (symbol : Symbol) (samples : List (Fin 9)) : Player :=
  ⟨name, symbol, fun board w =>
    match AIPlayer.takeTurn name symbol board { w with random := samples } with
    | none => none
    | some (move, board, w') => some (move, board, { w' with random := w.random })⟩

/-- What holds at the head of the loop of `Game.start` after `n` passes, whoever
the players are: the two players are still those given to the constructor, the
turn index is `n mod 2`, `winner` is what `checkWin` says of the board, `n` turns
are on record, and the `k`-th of them was asked of the player with index
`k mod 2`. -/
def Run.Sound (player1 player2 : Player) (n : Nat) (r : Run) : Prop :=
  r.game.players = [player1, player2] ∧
  r.game.currentPlayerIndex = ((n % 2 : Nat) : Int) ∧
  r.winner = r.game.board.checkWin ∧
  r.turns.length = n ∧
  r.turns.map Prod.fst = ((List.range n).map (fun k => ((k % 2 : Nat) : Int))).reverse

/-- What holds of the board at the head of the loop after `n` passes when each
turn makes exactly one move: 9 cells, `n` of them non-Empty. -/
def Run.BoardOk (n : Nat) (r : Run) : Prop :=
  r.game.board.board.length = 9 ∧ r.game.board.occupied = n

/-- The position `m` is one of the three of the triple `t`. -/
def inTriple (m : Int) (t : Int × Int × Int) : Prop :=
  m = t.1 ∨ m = t.2.1 ∨ m = t.2.2

/-! ## Reading and writing cells -/

theorem Board.get_lt_length {b : Board} {i : Int} {c : Cell} (h : b.get i = some c) :
    0 ≤ i ∧ i.toNat < b.board.length := by
  unfold Board.get at h
  split at h
  · rename_i h0
    exact ⟨h0, (List.getElem?_eq_some.mp h).1⟩
  · cases h

theorem Board.get_makeMove_self {b : Board} {p : Int} (s : Symbol)
    (h : b.get p = some none) : (b.makeMove p s).2.get p = some (some s) := by
  obtain ⟨h0, hlt⟩ := Board.get_lt_length h
  have hmk : b.makeMove p s = (true, ⟨b.board.set p.toNat (some s)⟩) := by
    simp [Board.makeMove, h]
  rw [hmk]
  simp [Board.get, h0, List.getElem?_set_self hlt]

theorem Board.get_makeMove_of_ne (b : Board) {p q : Int} (s : Symbol) (hq : q ≠ p) :
    (b.makeMove p s).2.get q = b.get q := by
  unfold Board.makeMove
  split
  · rename_i h
    obtain ⟨h0, _⟩ := Board.get_lt_length h
    unfold Board.get
    split
    · rename_i hq0
      have hne : p.toNat ≠ q.toNat := by omega
      simp [List.getElem?_set_ne hne]
    · rfl
  · rfl

theorem Board.length_makeMove (b : Board) (p : Int) (s : Symbol) :
    (b.makeMove p s).2.board.length = b.board.length := by
  unfold Board.makeMove
  split <;> simp

theorem Board.get_makeMove_of_some {b : Board} {i : Int} {s : Symbol} (p : Int) (t : Symbol)
    (h : b.get i = some (some s)) : (b.makeMove p t).2.get i = some (some s) := by
  by_cases hip : i = p
  · subst hip
    simp [Board.makeMove, h]
  · rw [Board.get_makeMove_of_ne b t hip, h]

theorem Board.length_makeMoves (ms : List (Int × Symbol)) (b : Board) :
    (b.makeMoves ms).board.length = b.board.length := by
  induction ms generalizing b with
  | nil => rfl
  | cons m rest ih =>
    obtain ⟨p, s⟩ := m
    simp only [Board.makeMoves]
    rw [ih, Board.length_makeMove]

theorem Board.get_makeMoves_of_some (ms : List (Int × Symbol)) {b : Board} {i : Int} {s : Symbol}
    (h : b.get i = some (some s)) : (b.makeMoves ms).get i = some (some s) := by
  induction ms generalizing b with
  | nil => exact h
  | cons m rest ih =>
    obtain ⟨p, t⟩ := m
    simp only [Board.makeMoves]
    exact ih (Board.get_makeMove_of_some p t h)

/-! ## `makeMove` -/

/-- C1: on any board, for a position `p` whose cell is Empty (so for every such
`p` in `0..8`) and any symbol `s`, `makeMove(p, s)` returns true and cell `p` then
holds `s`; a second call `makeMove(p, t)` with any symbol `t` returns false and
leaves the whole board as it was (so cell `p` still holds `s`). -/
theorem makeMove_on_empty_cell (b : Board) (p : Int) (s t : Symbol)
    (hcell : b.get p = some none) :
    (b.makeMove p s).1 = true ∧
    (b.makeMove p s).2.get p = some (some s) ∧
    ((b.makeMove p s).2.makeMove p t).1 = false ∧
    ((b.makeMove p s).2.makeMove p t).2 = (b.makeMove p s).2 ∧
    ((b.makeMove p s).2.makeMove p t).2.get p = some (some s) := by
  have hget := Board.get_makeMove_self s hcell
  have h1 : (b.makeMove p s).1 = true := by simp [Board.makeMove, hcell]
  have h2 : (b.makeMove p s).2.makeMove p t = (false, (b.makeMove p s).2) := by
    generalize (b.makeMove p s).2 = b1 at hget
    simp [Board.makeMove, hget]
  refine ⟨h1, hget, ?_, ?_, ?_⟩
  · rw [h2]
  · rw [h2]
  · rw [h2]; exact hget

theorem makeMove_on_empty_cell_witness :
    Board.new.get 4 = some none ∧
    (Board.new.makeMove 4 Symbol.X).1 = true ∧
    (Board.new.makeMove 4 Symbol.X).2.get 4 = some (some Symbol.X) ∧
    ((Board.new.makeMove 4 Symbol.X).2.makeMove 4 Symbol.O).1 = false ∧
    ((Board.new.makeMove 4 Symbol.X).2.makeMove 4 Symbol.O).2 = (Board.new.makeMove 4 Symbol.X).2 ∧
    ((Board.new.makeMove 4 Symbol.X).2.makeMove 4 Symbol.O).2.get 4 = some (some Symbol.X) :=
  ⟨by decide, makeMove_on_empty_cell Board.new 4 Symbol.X Symbol.O (by decide)⟩

/-- C2: on a board of 9 cells, for an integer position `p < 0` or `p > 8` and any
symbol, `makeMove(p, s)` returns false and the board is the same afterwards: every
cell keeps its value and there are still 9 cells. -/
theorem makeMove_out_of_range (b : Board) (p : Int) (s : Symbol)
    (hlen : b.board.length = 9) (hp : p < 0 ∨ 8 < p) :
    (b.makeMove p s).1 = false ∧ (b.makeMove p s).2 = b ∧
    (b.makeMove p s).2.board.length = 9 := by
  have hget : b.get p = none := by
    unfold Board.get
    split
    · rw [List.getElem?_eq_none_iff]; omega
    · rfl
  simp [Board.makeMove, hget, hlen]

theorem makeMove_out_of_range_witness :
    Board.new.board.length = 9 ∧ ((8 : Int) < 9) ∧ ((-1 : Int) < 0) ∧
    ((Board.new.makeMove 9 Symbol.X).1 = false ∧ (Board.new.makeMove 9 Symbol.X).2 = Board.new ∧
      (Board.new.makeMove 9 Symbol.X).2.board.length = 9) ∧
    ((Board.new.makeMove (-1) Symbol.O).1 = false ∧
      (Board.new.makeMove (-1) Symbol.O).2 = Board.new ∧
      (Board.new.makeMove (-1) Symbol.O).2.board.length = 9) :=
  ⟨by decide, by decide, by decide,
   makeMove_out_of_range Board.new 9 Symbol.X (by decide) (Or.inr (by decide)),
   makeMove_out_of_range Board.new (-1) Symbol.O (by decide) (Or.inl (by decide))⟩

/-! ## `checkWin` -/

theorem matched_iff (x y z : Option Cell) :
    (truthy x && x == y && x == z) = true ↔
      ∃ s, x = some (some s) ∧ y = some (some s) ∧ z = some (some s) := by
  rcases x with _ | _ | s
  · simp [truthy]
  · simp [truthy]
  · simp only [truthy, Bool.true_and, Bool.and_eq_true, beq_iff_eq]
    constructor
    · rintro ⟨h1, h2⟩
      exact ⟨s, rfl, h1.symm, h2.symm⟩
    · rintro ⟨s', h, h1, h2⟩
      cases h
      exact ⟨h1.symm, h2.symm⟩

theorem Board.checkWinLoop_cons_of_line (b : Board) {s : Symbol} {t : Int × Int × Int}
    (rest : List (Int × Int × Int)) (h : b.lineOf s t) :
    b.checkWinLoop (t :: rest) = some s := by
  obtain ⟨x, y, z⟩ := t
  have hc : (truthy (b.get x) && b.get x == b.get y && b.get x == b.get z) = true :=
    (matched_iff _ _ _).mpr ⟨s, h.1, h.2.1, h.2.2⟩
  simp only [Board.checkWinLoop, hc, if_true]
  rw [h.1]
  rfl

theorem Board.checkWinLoop_cons_of_no_line (b : Board) {t : Int × Int × Int}
    (rest : List (Int × Int × Int)) (h : ¬ ∃ s, b.lineOf s t) :
    b.checkWinLoop (t :: rest) = b.checkWinLoop rest := by
  obtain ⟨x, y, z⟩ := t
  have hc : ¬ (truthy (b.get x) && b.get x == b.get y && b.get x == b.get z) = true :=
    fun hc => h ((matched_iff _ _ _).mp hc)
  simp only [Board.checkWinLoop, hc]
  rfl

theorem Board.checkWinLoop_eq_none_iff (b : Board) (ts : List (Int × Int × Int)) :
    b.checkWinLoop ts = none ↔ ∀ t ∈ ts, ¬ ∃ s, b.lineOf s t := by
  induction ts with
  | nil => simp [Board.checkWinLoop]
  | cons t rest ih =>
    by_cases h : ∃ s, b.lineOf s t
    · obtain ⟨s, hs⟩ := h
      rw [Board.checkWinLoop_cons_of_line b rest hs]
      constructor
      · intro hc
        cases hc
      · intro hno
        exact absurd ⟨s, hs⟩ (hno t (List.mem_cons_self _ _))
    · rw [Board.checkWinLoop_cons_of_no_line b rest h, ih]
      constructor
      · intro hrest u hu
        rcases List.mem_cons.mp hu with rfl | hu
        · exact h
        · exact hrest u hu
      · intro hall u hu
        exact hall u (List.mem_cons_of_mem _ hu)

theorem Board.checkWinLoop_first (b : Board) (pre : List (Int × Int × Int))
    {t : Int × Int × Int} (post : List (Int × Int × Int)) {s : Symbol}
    (hpre : ∀ u ∈ pre, ¬ ∃ s', b.lineOf s' u) (ht : b.lineOf s t) :
    b.checkWinLoop (pre ++ t :: post) = some s := by
  induction pre with
  | nil => exact Board.checkWinLoop_cons_of_line b post ht
  | cons u rest ih =>
    rw [List.cons_append, Board.checkWinLoop_cons_of_no_line b _ (hpre u (List.mem_cons_self _ _))]
    exact ih (fun v hv => hpre v (List.mem_cons_of_mem _ hv))

/-- C3: for every board, `checkWin` returns none exactly when none of the eight
triples has its three cells equal and non-Empty; it returns none on the empty
board; and for each of the eight triples and each symbol `s`, on the 9-cell
board whose occupied cells are exactly that triple, all holding `s`, it returns
`s`. -/
theorem checkWin_none_iff_and_single_triple (b : Board) :
    (b.checkWin = none ↔
      ∀ t ∈ [((0 : Int), (1 : Int), (2 : Int)), (3, 4, 5), (6, 7, 8), (0, 3, 6), (1, 4, 7),
              (2, 5, 8), (0, 4, 8), (2, 4, 6)],
        ¬ ∃ s, b.get t.1 = some (some s) ∧ b.get t.2.1 = some (some s) ∧
                b.get t.2.2 = some (some s)) ∧
    Board.new.checkWin = none ∧
    ∀ t ∈ [((0 : Nat), (1 : Nat), (2 : Nat)), (3, 4, 5), (6, 7, 8), (0, 3, 6), (1, 4, 7),
            (2, 5, 8), (0, 4, 8), (2, 4, 6)],
      ∀ s : Symbol,
        b.board = (List.range 9).map
          (fun i => if i = t.1 ∨ i = t.2.1 ∨ i = t.2.2 then some s else none) →
        b.checkWin = some s := by
  refine ⟨Board.checkWinLoop_eq_none_iff b winPatterns, by decide, ?_⟩
  intro t ht s hb
  obtain ⟨cells⟩ := b
  simp only at hb
  subst hb
  simp only [List.mem_cons, List.mem_singleton, List.not_mem_nil, or_false] at ht
  rcases ht with h | h | h | h | h | h | h | h <;> subst h <;> cases s <;> decide

theorem checkWin_none_iff_and_single_triple_witness :
    (⟨[none, none, some Symbol.O, none, some Symbol.O, none, some Symbol.O, none, none]⟩ :
      Board).board = (List.range 9).map
        (fun i => if i = 2 ∨ i = 4 ∨ i = 6 then some Symbol.O else none) ∧
    (⟨[none, none, some Symbol.O, none, some Symbol.O, none, some Symbol.O, none, none]⟩ :
      Board).checkWin = some Symbol.O :=
  ⟨by decide,
   (checkWin_none_iff_and_single_triple
      ⟨[none, none, some Symbol.O, none, some Symbol.O, none, some Symbol.O, none, none]⟩).2.2
      (2, 4, 6) (by decide) Symbol.O (by decide)⟩

/-- C4: on every board with a fully matched, non-Empty triple, `checkWin` returns the
symbol of the first such triple in the order rows `(0,1,2),(3,4,5),(6,7,8)`,
columns `(0,3,6),(1,4,7),(2,5,8)`, diagonals `(0,4,8),(2,4,6)`: if the triples
before `t` in that order are unmatched and `t` holds `s` three times, the result
is `s`.  In particular a board with row 0 all X and row 1 all O gives X, and the
result depends on the cells only: two boards with the same cells give the same
answer. -/
theorem checkWin_first_matched_triple (b : Board) :
    (∀ (pre post : List (Int × Int × Int)) (t : Int × Int × Int) (s : Symbol),
      [((0 : Int), (1 : Int), (2 : Int)), (3, 4, 5), (6, 7, 8), (0, 3, 6), (1, 4, 7),
        (2, 5, 8), (0, 4, 8), (2, 4, 6)] = pre ++ t :: post →
      (∀ u ∈ pre, ¬ ∃ s', b.lineOf s' u) → b.lineOf s t → b.checkWin = some s) ∧
    (b.lineOf Symbol.X (0, 1, 2) → b.lineOf Symbol.O (3, 4, 5) → b.checkWin = some Symbol.X) ∧
    (∀ b' : Board, b'.board = b.board → b'.checkWin = b.checkWin) := by
  refine ⟨?_, ?_, ?_⟩
  · intro pre post t s hsplit hpre ht
    have hw : winPatterns = pre ++ t :: post := hsplit
    unfold Board.checkWin
    rw [hw]
    exact Board.checkWinLoop_first b pre post hpre ht
  · intro hX _
    exact Board.checkWinLoop_cons_of_line b _ hX
  · intro b' hb'
    obtain ⟨cells'⟩ := b'
    obtain ⟨cells⟩ := b
    simp only at hb'
    rw [hb']

theorem checkWin_first_matched_triple_witness :
    ([((0 : Int), (1 : Int), (2 : Int)), (3, 4, 5), (6, 7, 8), (0, 3, 6), (1, 4, 7),
        (2, 5, 8), (0, 4, 8), (2, 4, 6)] = [(0, 1, 2), (3, 4, 5), (6, 7, 8)] ++ (0, 3, 6) ::
        [(1, 4, 7), (2, 5, 8), (0, 4, 8), (2, 4, 6)]) ∧
    (∀ u ∈ [((0 : Int), (1 : Int), (2 : Int)), (3, 4, 5), (6, 7, 8)],
      ¬ ∃ s', (⟨[some Symbol.O, some Symbol.X, none, some Symbol.O, some Symbol.X, none,
                 some Symbol.O, none, some Symbol.X]⟩ : Board).lineOf s' u) ∧
    (⟨[some Symbol.O, some Symbol.X, none, some Symbol.O, some Symbol.X, none,
       some Symbol.O, none, some Symbol.X]⟩ : Board).lineOf Symbol.O (0, 3, 6) ∧
    (⟨[some Symbol.O, some Symbol.X, none, some Symbol.O, some Symbol.X, none,
       some Symbol.O, none, some Symbol.X]⟩ : Board).checkWin = some Symbol.O :=
  ⟨by decide, by decide, by decide,
   (checkWin_first_matched_triple
      ⟨[some Symbol.O, some Symbol.X, none, some Symbol.O, some Symbol.X, none,
        some Symbol.O, none, some Symbol.X]⟩).1
      [(0, 1, 2), (3, 4, 5), (6, 7, 8)] [(1, 4, 7), (2, 5, 8), (0, 4, 8), (2, 4, 6)]
      (0, 3, 6) Symbol.O (by decide) (by decide) (by decide)⟩

/-! ## `isFull` -/

/-- C5: on a board of 9 cells, `isFull` returns true if and only if each of the cells
`0..8` is non-Empty; and on any board it returns false when some cell is Empty. -/
theorem isFull_iff_no_empty_cell (b : Board) (hlen : b.board.length = 9) :
    (b.isFull = true ↔ ∀ i : Int, 0 ≤ i → i ≤ 8 → ∃ s, b.get i = some (some s)) ∧
    ((∃ i : Int, b.get i = some none) → b.isFull = false) := by
  constructor
  · unfold Board.isFull
    rw [List.all_eq_true]
    constructor
    · intro hall i h0 h8
      have hlt : i.toNat < b.board.length := by omega
      have hmem : b.board[i.toNat] ∈ b.board := List.getElem_mem hlt
      have hne := hall _ hmem
      have hget : b.get i = some b.board[i.toNat] := by
        simp [Board.get, h0, List.getElem?_eq_getElem hlt]
      rw [hget]
      cases hc : b.board[i.toNat] with
      | none => simp [hc] at hne
      | some s => exact ⟨s, rfl⟩
    · intro hall x hx
      obtain ⟨n, hn, rfl⟩ := List.getElem_of_mem hx
      obtain ⟨s, hs⟩ := hall (n : Int) (by omega) (by omega)
      have hget : b.get (n : Int) = some b.board[n] := by
        simp [Board.get, List.getElem?_eq_getElem hn]
      rw [hget] at hs
      have hcell : b.board[n] = some s := Option.some.inj hs
      simp [hcell]
  · rintro ⟨i, hi⟩
    obtain ⟨h0, hlt⟩ := Board.get_lt_length hi
    have hget : b.board[i.toNat]? = some none := by
      simpa [Board.get, h0] using hi
    have hmem : (none : Cell) ∈ b.board := List.getElem?_mem hget
    cases hf : b.isFull with
    | false => rfl
    | true =>
      unfold Board.isFull at hf
      rw [List.all_eq_true] at hf
      simpa using hf none hmem

theorem isFull_iff_no_empty_cell_witness :
    (Board.new.makeMoves [(0, Symbol.X), (1, Symbol.O)]).board.length = 9 ∧
    (∃ i : Int, (Board.new.makeMoves [(0, Symbol.X), (1, Symbol.O)]).get i = some none) ∧
    (Board.new.makeMoves [(0, Symbol.X), (1, Symbol.O)]).isFull = false :=
  ⟨by decide, ⟨2, by decide⟩,
   (isFull_iff_no_empty_cell (Board.new.makeMoves [(0, Symbol.X), (1, Symbol.O)])
      (by decide)).2 ⟨2, by decide⟩⟩

/-! ## The board invariant -/

/-- C6: start from a fresh board and apply any finite sequence of `makeMove(p, s)`
calls, `p` any integer and `s` a symbol, successful or not.  The board then has
exactly 9 cells, and a cell that holds a symbol at that point holds the same
symbol after any further sequence of such calls. -/
theorem board_cells_fixed_once_set (ms ms' : List (Int × Symbol)) :
    (Board.new.makeMoves ms).board.length = 9 ∧
    ∀ (i : Int) (s : Symbol), (Board.new.makeMoves ms).get i = some (some s) →
      ((Board.new.makeMoves ms).makeMoves ms').get i = some (some s) := by
  refine ⟨?_, ?_⟩
  · rw [Board.length_makeMoves]
    rfl
  · intro i s h
    exact Board.get_makeMoves_of_some ms' h

theorem board_cells_fixed_once_set_witness :
    (Board.new.makeMoves [(4, Symbol.X), (-3, Symbol.O)]).get 4 = some (some Symbol.X) ∧
    ((Board.new.makeMoves [(4, Symbol.X), (-3, Symbol.O)]).makeMoves
      [(4, Symbol.O), (12, Symbol.X), (0, Symbol.O)]).get 4 = some (some Symbol.X) :=
  ⟨by decide,
   (board_cells_fixed_once_set [(4, Symbol.X), (-3, Symbol.O)]
      [(4, Symbol.O), (12, Symbol.X), (0, Symbol.O)]).2 4 Symbol.X (by decide)⟩

/-! ## End-to-end scenarios

The scenarios run the program as `main.js` sets it up: the automated player
holds X and moves first, the human player holds O.  The moves of X are the
values drawn from `Math.random`, those of O the lines typed. -/

/-- C7, as stated, fails: with the moves X@0, O@1, X@2, O@3, X@4, O@5, X@7, O@6, X@8 the
game does stop, but on the final board `checkWin` does not return none and the
game does not report a draw (cells 0, 4 and 8 all hold X). -/
theorem scenario_alternating_fill_not_draw :
    ∃ r, game.start 9 ⟨["1", "3", "5", "6"], [0, 2, 4, 7, 8], []⟩ = some r ∧
      r.game.board.checkWin ≠ none ∧ r.reported ≠ some Msg.draw :=
  ⟨_, rfl, by decide⟩

/-- C7, amended: with the moves X@0, O@1, X@2, O@3, X@4, O@5, X@7, O@6, X@8 all nine cells
get filled in nine turns; on the final board `isFull` is true, `checkWin`
returns X, and the game reports that X wins. -/
theorem scenario_alternating_fill_x_wins :
    ∃ r, game.start 9 ⟨["1", "3", "5", "6"], [0, 2, 4, 7, 8], []⟩ = some r ∧
      r.turns = [(0, 8), (1, 6), (0, 7), (1, 5), (0, 4), (1, 3), (0, 2), (1, 1), (0, 0)] ∧
      r.game.board = ⟨[some Symbol.X, some Symbol.O, some Symbol.X,
                       some Symbol.O, some Symbol.X, some Symbol.O,
                       some Symbol.O, some Symbol.X, some Symbol.X]⟩ ∧
      r.game.board.isFull = true ∧
      r.game.board.checkWin = some Symbol.X ∧
      r.reported = some (Msg.wins Symbol.X) :=
  ⟨_, rfl, by decide⟩

/-- C8: with the moves X@0, O@3, X@1, O@4, X@2 on offer, followed by a further move for
each player, the game stops after exactly 5 turns: `checkWin` returns X on the
board after the fifth move, the game reports that X wins, and the sixth move
is never asked for (the line and the random value that would feed it are still
unread). -/
theorem scenario_top_row_x_wins :
    ∃ r, game.start 9 ⟨["3", "4", "5"], [0, 1, 2, 6], []⟩ = some r ∧
      r.turns = [(0, 2), (1, 4), (0, 1), (1, 3), (0, 0)] ∧
      r.turnCount = 5 ∧
      r.game.board = ⟨[some Symbol.X, some Symbol.X, some Symbol.X,
                       some Symbol.O, some Symbol.O, none,
                       none, none, none]⟩ ∧
      r.game.board.checkWin = some Symbol.X ∧
      r.winner = some Symbol.X ∧
      r.reported = some (Msg.wins Symbol.X) ∧
      r.world.stdin = ["5"] ∧ r.world.random = [6] :=
  ⟨_, rfl, by decide⟩

/-! ## The outcome reported by `Game.start` -/

theorem Run.turn_winner {r r' : Run} (h : r.turn = some r') :
    r'.winner = r'.game.board.checkWin := by
  unfold Run.turn at h
  dsimp only at h
  split at h
  · cases h
  · split at h
    · cases h
    · cases h
      rfl

theorem Game.loop_stops (fuel : Nat) {r r' : Run} (hinv : r.winner = r.game.board.checkWin)
    (h : Game.loop fuel r = some r') :
    r'.winner = r'.game.board.checkWin ∧ r'.continues = false := by
  induction fuel generalizing r with
  | zero =>
    unfold Game.loop at h
    split at h
    · cases h
    · rename_i hc
      cases h
      exact ⟨hinv, by simpa using hc⟩
  | succ n ih =>
    unfold Game.loop at h
    split at h
    · split at h
      · cases h
      · rename_i r1 hturn
        exact ih (Run.turn_winner hturn) h
    · rename_i hc
      cases h
      exact ⟨hinv, by simpa using hc⟩

/-- C9: for every pair of players (among them those that apply exactly one valid move
per turn), when `Game.start` on a new game stops, it reports that `w` wins if and
only if `checkWin` on the final board returns `w`, and it reports a draw if and
only if the final board is full and `checkWin` returns none.  In particular, on
a final board that is full and has a completed triple, a win is reported and
not a draw. -/
theorem start_reports_checkWin (player1 player2 : Player) (fuel : Nat) (w : World) (r : Run)
    (hstop : (Game.new player1 player2).start fuel w = some r) :
    (∀ s, r.reported = some (Msg.wins s) ↔ r.game.board.checkWin = some s) ∧
    (r.reported = some Msg.draw ↔
      r.game.board.isFull = true ∧ r.game.board.checkWin = none) ∧
    (∀ s, r.game.board.isFull = true → r.game.board.checkWin = some s →
      r.reported = some (Msg.wins s) ∧ r.reported ≠ some Msg.draw) := by
  unfold Game.start at hstop
  split at hstop
  · cases hstop
  · rename_i r0 hloop
    have hinit : (⟨Game.new player1 player2, none, w.log Msg.starting, []⟩ : Run).winner =
        (⟨Game.new player1 player2, none, w.log Msg.starting, []⟩ : Run).game.board.checkWin := by
      show none = Board.new.checkWin
      decide
    obtain ⟨hwin, hcont⟩ := Game.loop_stops fuel hinit hloop
    cases hstop
    simp only [Run.reported, World.log, List.head?_cons]
    simp only [Run.continues, Bool.and_eq_false_imp, Bool.not_eq_true'] at hcont
    rw [← hwin]
    cases hw : r0.winner with
    | none =>
      have hfull : r0.game.board.isFull = true := by
        have := hcont (by simp [hw])
        simpa using this
      simp [hfull]
    | some s => simp

theorem start_reports_checkWin_witness :
    ∃ r, game.start 9 ⟨["2", "3", "5", "7"], [0, 1, 6, 8, 4], []⟩ = some r ∧
      r.turnCount = 9 ∧ r.game.board.isFull = true ∧
      r.game.board.checkWin = some Symbol.X ∧
      r.reported = some (Msg.wins Symbol.X) ∧ r.reported ≠ some Msg.draw :=
  ⟨_, rfl, by decide, by decide, by decide,
   ((start_reports_checkWin player1 player2 9 ⟨["2", "3", "5", "7"], [0, 1, 6, 8, 4], []⟩ _ rfl).2.2
      Symbol.X (by decide) (by decide)).1,
   ((start_reports_checkWin player1 player2 9 ⟨["2", "3", "5", "7"], [0, 1, 6, 8, 4], []⟩ _ rfl).2.2
      Symbol.X (by decide) (by decide)).2⟩

/-! ## `HumanPlayer.takeTurn` -/

theorem Board.makeMove_fst_iff (b : Board) (p : Int) (s : Symbol) :
    (b.makeMove p s).1 = true ↔ b.get p = some none := by
  unfold Board.makeMove
  split <;> simp_all

theorem HumanPlayer.askForMove_cons (name : String) (symbol : Symbol) (line : String)
    (rest : List String) (random : List (Fin 9)) (out : List Msg) (b : Board) :
    HumanPlayer.askForMove name symbol (line :: rest) random out b =
      match parseInt line with
      | some move =>
        if 0 ≤ move ∧ move ≤ 8 then
          if (b.makeMove move symbol).1 then
            some (move, (b.makeMove move symbol).2,
              ⟨rest, random, Msg.humanTurn name symbol :: out⟩)
          else
            HumanPlayer.askForMove name symbol rest random
              (Msg.positionTaken :: Msg.humanTurn name symbol :: out) b
        else
          HumanPlayer.askForMove name symbol rest random
            (Msg.invalidInput :: Msg.humanTurn name symbol :: out) b
      | none =>
        HumanPlayer.askForMove name symbol rest random
          (Msg.invalidInput :: Msg.humanTurn name symbol :: out) b := rfl

theorem HumanPlayer.askForMove_rejects (name : String) (symbol : Symbol) (line : String)
    (rest : List String) (random : List (Fin 9)) (out : List Msg) (b : Board)
    (hbad : ¬ ∃ k, parseInt line = some k ∧ 0 ≤ k ∧ k ≤ 8 ∧ b.get k = some none) :
    ∃ msg, msg.isRejection = true ∧ msg.isPrompt = false ∧
      HumanPlayer.askForMove name symbol (line :: rest) random out b =
        HumanPlayer.askForMove name symbol rest random
          (msg :: Msg.humanTurn name symbol :: out) b := by
  rw [HumanPlayer.askForMove_cons]
  cases hparse : parseInt line with
  | none => exact ⟨Msg.invalidInput, rfl, rfl, rfl⟩
  | some k =>
    by_cases hrange : 0 ≤ k ∧ k ≤ 8
    · have hfalse : ¬ (b.makeMove k symbol).1 = true := by
        rw [Board.makeMove_fst_iff]
        intro hcell
        exact hbad ⟨k, hparse, hrange.1, hrange.2, hcell⟩
      refine ⟨Msg.positionTaken, rfl, rfl, ?_⟩
      have hf : (b.makeMove k symbol).1 = false := by simpa using hfalse
      simp [hrange, hf]
    · refine ⟨Msg.invalidInput, rfl, rfl, ?_⟩
      simp only [hrange, if_false]

theorem HumanPlayer.askForMove_accepts (name : String) (symbol : Symbol) (line : String)
    (rest : List String) (random : List (Fin 9)) (out : List Msg) (b : Board) (m : Int)
    (hgood : parseInt line = some m ∧ 0 ≤ m ∧ m ≤ 8 ∧ b.get m = some none) :
    HumanPlayer.askForMove name symbol (line :: rest) random out b =
      some (m, (b.makeMove m symbol).2, ⟨rest, random, Msg.humanTurn name symbol :: out⟩) := by
  obtain ⟨hparse, h0, h8, hcell⟩ := hgood
  have htrue : (b.makeMove m symbol).1 = true := (Board.makeMove_fst_iff b m symbol).mpr hcell
  rw [HumanPlayer.askForMove_cons]
  simp only [hparse, h0, h8, and_self, if_true, htrue]

theorem HumanPlayer.askForMove_first_valid (name : String) (symbol : Symbol) (b : Board)
    (pre : List String) (line : String) (post : List String) (m : Int)
    (random : List (Fin 9)) (out : List Msg)
    (hpre : ∀ l ∈ pre, ¬ ∃ k, parseInt l = some k ∧ 0 ≤ k ∧ k ≤ 8 ∧ b.get k = some none)
    (hline : parseInt line = some m ∧ 0 ≤ m ∧ m ≤ 8 ∧ b.get m = some none) :
    ∃ out', HumanPlayer.askForMove name symbol (pre ++ line :: post) random out b =
        some (m, (b.makeMove m symbol).2, ⟨post, random, out'⟩) ∧
      out'.countP Msg.isRejection = pre.length + out.countP Msg.isRejection ∧
      out'.countP Msg.isPrompt = pre.length + 1 + out.countP Msg.isPrompt := by
  induction pre generalizing out with
  | nil =>
    refine ⟨Msg.humanTurn name symbol :: out, ?_, ?_, ?_⟩
    · exact HumanPlayer.askForMove_accepts name symbol line post random out b m hline
    · have hno : ¬ (Msg.humanTurn name symbol).isRejection = true := by simp [Msg.isRejection]
      rw [List.countP_cons_of_neg _ _ hno]
      simp
    · have hyes : (Msg.humanTurn name symbol).isPrompt = true := rfl
      rw [List.countP_cons_of_pos _ _ hyes]
      simp
      omega
  | cons l rest ih =>
    obtain ⟨msg, hmsg, hnp, hstep⟩ := HumanPlayer.askForMove_rejects name symbol l
      (rest ++ line :: post) random out b (hpre l (List.mem_cons_self _ _))
    obtain ⟨out', hrun, hrej, hprompt⟩ :=
      ih (msg :: Msg.humanTurn name symbol :: out) (fun x hx => hpre x (List.mem_cons_of_mem _ hx))
    have hno : ¬ (Msg.humanTurn name symbol).isRejection = true := by simp [Msg.isRejection]
    have hyes : (Msg.humanTurn name symbol).isPrompt = true := rfl
    have hnp' : ¬ msg.isPrompt = true := by simp [hnp]
    rw [List.countP_cons_of_pos _ _ hmsg, List.countP_cons_of_neg _ _ hno] at hrej
    rw [List.countP_cons_of_neg _ _ hnp', List.countP_cons_of_pos _ _ hyes] at hprompt
    refine ⟨out', ?_, ?_, ?_⟩
    · rw [List.cons_append, hstep, hrun]
    · rw [hrej, List.length_cons]
      omega
    · rw [hprompt, List.length_cons]
      omega

/-- What `parseInt` makes of some lines: text after the digits is ignored, as are
leading blanks and a fraction, a `0x` prefix switches to radix 16, and a line
without a leading digit gives `NaN`. -/
theorem parseInt_examples :
    parseInt "7abc" = some 7 ∧ parseInt " 8.9" = some 8 ∧ parseInt "0x8" = some 8 ∧
    parseInt "-0" = some 0 ∧ parseInt "+3" = some 3 ∧ parseInt "12" = some 12 ∧
    parseInt "-1" = some (-1) ∧ parseInt "abc" = none ∧ parseInt "" = none ∧
    parseInt "x7" = none := by
  decide

/-- C10: for every board and every sequence of input lines in which some line parses
(by `parseInt`) as an integer in `[0,8]` whose cell is Empty, `HumanPlayer.takeTurn`
resolves with the value `m` of the first such line.  Every earlier line is
rejected: each adds one error message and one new prompt to the console, and the
board that results is the one before the call with `makeMove(m, symbol)` applied
once, so the rejected lines changed nothing.  On the empty board with the lines
"9", "abc", "0" the resolved move is 0, after exactly two rejections. -/
theorem humanPlayer_takeTurn_first_valid_line :
    (∀ (name : String) (symbol : Symbol) (b : Board) (pre : List String) (line : String)
        (post : List String) (m : Int) (random : List (Fin 9)) (out : List Msg),
      (∀ l ∈ pre, ¬ ∃ k, parseInt l = some k ∧ 0 ≤ k ∧ k ≤ 8 ∧ b.get k = some none) →
      (parseInt line = some m ∧ 0 ≤ m ∧ m ≤ 8 ∧ b.get m = some none) →
      ∃ w, (HumanPlayer name symbol).takeTurn b ⟨pre ++ line :: post, random, out⟩ =
          some (m, (b.makeMove m symbol).2, w) ∧
        (b.makeMove m symbol).1 = true ∧
        w.stdin = post ∧ w.random = random ∧
        w.out.countP Msg.isRejection = pre.length + out.countP Msg.isRejection ∧
        w.out.countP Msg.isPrompt = pre.length + 1 + out.countP Msg.isPrompt) ∧
    (HumanPlayer "Human Player" Symbol.O).takeTurn Board.new ⟨["9", "abc", "0"], [], []⟩ =
      some (0, ⟨[some Symbol.O, none, none, none, none, none, none, none, none]⟩,
        ⟨[], [], [Msg.humanTurn "Human Player" Symbol.O, Msg.invalidInput,
                  Msg.humanTurn "Human Player" Symbol.O, Msg.invalidInput,
                  Msg.humanTurn "Human Player" Symbol.O]⟩) := by
  refine ⟨?_, by decide⟩
  intro name symbol b pre line post m random out hpre hline
  obtain ⟨out', hrun, hrej, hprompt⟩ :=
    HumanPlayer.askForMove_first_valid name symbol b pre line post m random out hpre hline
  exact ⟨⟨post, random, out'⟩, hrun, (Board.makeMove_fst_iff b m symbol).mpr hline.2.2.2,
    rfl, rfl, hrej, hprompt⟩

theorem humanPlayer_takeTurn_first_valid_line_witness :
    (∀ l ∈ ["4", " 12", "x7", ""],
      ¬ ∃ k, parseInt l = some k ∧ 0 ≤ k ∧ k ≤ 8 ∧
        (Board.new.makeMoves [(4, Symbol.X)]).get k = some none) ∧
    (parseInt "7" = some 7 ∧ (0 : Int) ≤ 7 ∧ (7 : Int) ≤ 8 ∧
      (Board.new.makeMoves [(4, Symbol.X)]).get 7 = some none) ∧
    ∃ w, (HumanPlayer "Human Player" Symbol.O).takeTurn (Board.new.makeMoves [(4, Symbol.X)])
          ⟨["4", " 12", "x7", ""] ++ "7" :: ["3"], [], []⟩ =
        some (7, ((Board.new.makeMoves [(4, Symbol.X)]).makeMove 7 Symbol.O).2, w) ∧
      ((Board.new.makeMoves [(4, Symbol.X)]).makeMove 7 Symbol.O).1 = true ∧
      w.stdin = ["3"] ∧ w.random = [] ∧
      w.out.countP Msg.isRejection = 4 + 0 ∧
      w.out.countP Msg.isPrompt = 4 + 1 + 0 :=
  ⟨by decide, by decide,
   humanPlayer_takeTurn_first_valid_line.1 "Human Player" Symbol.O
     (Board.new.makeMoves [(4, Symbol.X)]) ["4", " 12", "x7", ""] "7" ["3"] 7 [] []
     (by decide) (by decide)⟩

/-! ## `AIPlayer.takeTurn` -/

theorem Board.makeMove_eq_of_fst {b : Board} {p : Int} {s : Symbol}
    (h : (b.makeMove p s).1 = true) : b.makeMove p s = (true, (b.makeMove p s).2) := by
  rw [← h]

theorem AIPlayer.findMove_cons (symbol : Symbol) (r : Fin 9) (rest : List (Fin 9)) (b : Board) :
    AIPlayer.findMove symbol (r :: rest) b =
      if (b.makeMove (r.val : Int) symbol).1 then
        some ((r.val : Int), (b.makeMove (r.val : Int) symbol).2, rest)
      else AIPlayer.findMove symbol rest b := rfl

theorem AIPlayer.findMove_first (symbol : Symbol) (b : Board) (pre : List (Fin 9)) (r : Fin 9)
    (post : List (Fin 9)) (hpre : ∀ x ∈ pre, b.get (x.val : Int) ≠ some none)
    (hr : b.get (r.val : Int) = some none) :
    AIPlayer.findMove symbol (pre ++ r :: post) b =
      some ((r.val : Int), (b.makeMove (r.val : Int) symbol).2, post) := by
  induction pre with
  | nil =>
    have htrue : (b.makeMove (r.val : Int) symbol).1 = true :=
      (Board.makeMove_fst_iff b _ symbol).mpr hr
    rw [List.nil_append, AIPlayer.findMove_cons]
    simp only [htrue, if_true]
  | cons x rest ih =>
    have hfalse : ¬ (b.makeMove (x.val : Int) symbol).1 = true := by
      rw [Board.makeMove_fst_iff]
      exact hpre x (List.mem_cons_self _ _)
    rw [List.cons_append, AIPlayer.findMove_cons]
    simp only [hfalse, if_false]
    exact ih (fun y hy => hpre y (List.mem_cons_of_mem _ hy))

theorem exists_first_split {α : Type} (P : α → Prop) (l : List α) (h : ∃ x ∈ l, P x) :
    ∃ pre x post, l = pre ++ x :: post ∧ (∀ y ∈ pre, ¬ P y) ∧ P x := by
  induction l with
  | nil =>
    obtain ⟨x, hx, _⟩ := h
    cases hx
  | cons a rest ih =>
    by_cases ha : P a
    · exact ⟨[], a, rest, rfl, fun y hy => absurd hy (List.not_mem_nil y), ha⟩
    · obtain ⟨x, hx, hPx⟩ := h
      have hrest : ∃ x ∈ rest, P x := by
        rcases List.mem_cons.mp hx with rfl | hx
        · exact absurd hPx ha
        · exact ⟨x, hx, hPx⟩
      obtain ⟨pre, y, post, hl, hpre, hy⟩ := ih hrest
      refine ⟨a :: pre, y, post, by rw [hl, List.cons_append], ?_, hy⟩
      intro z hz
      rcases List.mem_cons.mp hz with rfl | hz
      · exact ha
      · exact hpre z hz

theorem AIPlayer.findMove_resolved (symbol : Symbol) (b : Board) (random : List (Fin 9))
    {m : Int} {b' : Board} {rest : List (Fin 9)}
    (h : AIPlayer.findMove symbol random b = some (m, b', rest)) :
    b.makeMove m symbol = (true, b') := by
  induction random with
  | nil => cases h
  | cons r tail ih =>
    rw [AIPlayer.findMove_cons] at h
    split at h
    · rename_i htrue
      cases h
      exact Board.makeMove_eq_of_fst htrue
    · exact ih h

theorem aiPlayer_movesOnce (name : String) (symbol : Symbol) : (AIPlayer name symbol).MovesOnce := by
  intro b w m b' w' h
  change AIPlayer.takeTurn name symbol b w = some (m, b', w') at h
  unfold AIPlayer.takeTurn at h
  dsimp only at h
  split at h
  · cases h
  · rename_i move board random hfind
    cases h
    exact AIPlayer.findMove_resolved symbol b _ hfind

theorem HumanPlayer.askForMove_resolved (name : String) (symbol : Symbol) (b : Board)
    (stdin : List String) (random : List (Fin 9)) (out : List Msg)
    {m : Int} {b' : Board} {w' : World}
    (h : HumanPlayer.askForMove name symbol stdin random out b = some (m, b', w')) :
    b.makeMove m symbol = (true, b') ∧ 0 ≤ m ∧ m ≤ 8 := by
  induction stdin generalizing out with
  | nil => cases h
  | cons line rest ih =>
    rw [HumanPlayer.askForMove_cons] at h
    split at h
    · rename_i move hparse
      split at h
      · rename_i hrange
        split at h
        · rename_i htrue
          cases h
          exact ⟨Board.makeMove_eq_of_fst htrue, hrange.1, hrange.2⟩
        · exact ih _ h
      · exact ih _ h
    · exact ih _ h

theorem humanPlayer_movesOnce (name : String) (symbol : Symbol) :
    (HumanPlayer name symbol).MovesOnce := by
  intro b w m b' w' h
  exact (HumanPlayer.askForMove_resolved name symbol b w.stdin w.random w.out h).1

theorem Board.makeMove_true_spec {b b' : Board} {m : Int} {s : Symbol}
    (h : b.makeMove m s = (true, b')) :
    b.get m = some none ∧ b'.get m = some (some s) ∧ (∀ q : Int, q ≠ m → b'.get q = b.get q) ∧
    b'.board.length = b.board.length := by
  have h1 : (b.makeMove m s).1 = true := by rw [h]
  have h2 : (b.makeMove m s).2 = b' := by rw [h]
  have hcell := (Board.makeMove_fst_iff b m s).mp h1
  refine ⟨hcell, ?_, ?_, ?_⟩
  · rw [← h2]; exact Board.get_makeMove_self s hcell
  · intro q hq
    rw [← h2]; exact Board.get_makeMove_of_ne b s hq
  · rw [← h2]; exact Board.length_makeMove b m s

/-- C11: for every board and every list of sampled positions that contains the position
of an Empty cell, `AIPlayer.takeTurn` resolves with the first sample whose cell is
Empty, which is the first for which `makeMove` returns true: the samples before
it are all at occupied cells, the board is the old one with that one move made,
and the samples after it stay undrawn.  So on a board with exactly one open cell
`q`, any samples among which `q` occurs resolve with `q`. -/
theorem aiPlayer_takeTurn_first_open_sample (name : String) (symbol : Symbol) (b : Board)
    (stdin : List String) (random : List (Fin 9)) (out : List Msg) :
    ((∃ r ∈ random, b.get (r.val : Int) = some none) →
      ∃ pre r post, random = pre ++ r :: post ∧
        (∀ x ∈ pre, b.get (x.val : Int) ≠ some none ∧ (b.makeMove (x.val : Int) symbol).1 = false) ∧
        b.get (r.val : Int) = some none ∧ (b.makeMove (r.val : Int) symbol).1 = true ∧
        (AIPlayer name symbol).takeTurn b ⟨stdin, random, out⟩ =
          some ((r.val : Int), (b.makeMove (r.val : Int) symbol).2,
            ⟨stdin, post, Msg.aiChose name (r.val : Int) :: Msg.aiTurn name symbol :: out⟩)) ∧
    (∀ q : Fin 9, b.get (q.val : Int) = some none →
      (∀ i : Int, b.get i = some none → i = (q.val : Int)) → q ∈ random →
      ∃ w, (AIPlayer name symbol).takeTurn b ⟨stdin, random, out⟩ =
        some ((q.val : Int), (b.makeMove (q.val : Int) symbol).2, w)) := by
  have hmain : (∃ r ∈ random, b.get (r.val : Int) = some none) →
      ∃ pre r post, random = pre ++ r :: post ∧
        (∀ x ∈ pre, b.get (x.val : Int) ≠ some none ∧ (b.makeMove (x.val : Int) symbol).1 = false) ∧
        b.get (r.val : Int) = some none ∧ (b.makeMove (r.val : Int) symbol).1 = true ∧
        (AIPlayer name symbol).takeTurn b ⟨stdin, random, out⟩ =
          some ((r.val : Int), (b.makeMove (r.val : Int) symbol).2,
            ⟨stdin, post, Msg.aiChose name (r.val : Int) :: Msg.aiTurn name symbol :: out⟩) := by
    intro hex
    obtain ⟨pre, r, post, hl, hpre, hr⟩ :=
      exists_first_split (fun x : Fin 9 => b.get (x.val : Int) = some none) random hex
    refine ⟨pre, r, post, hl, ?_, hr, (Board.makeMove_fst_iff b _ symbol).mpr hr, ?_⟩
    · intro x hx
      refine ⟨hpre x hx, ?_⟩
      have hno : ¬ (b.makeMove (x.val : Int) symbol).1 = true := by
        rw [Board.makeMove_fst_iff]; exact hpre x hx
      simpa using hno
    · have hfind := AIPlayer.findMove_first symbol b pre r post hpre hr
      change AIPlayer.takeTurn name symbol b ⟨stdin, random, out⟩ = _
      unfold AIPlayer.takeTurn
      simp only [World.log, hl, hfind]
  refine ⟨hmain, ?_⟩
  intro q hq honly hmem
  obtain ⟨pre, r, post, _, _, hr, _, hrun⟩ := hmain ⟨q, hmem, hq⟩
  have hrq : (r.val : Int) = (q.val : Int) := honly _ hr
  rw [hrq] at hrun
  exact ⟨_, hrun⟩

theorem aiPlayer_takeTurn_first_open_sample_witness :
    (Board.new.makeMoves [(0, Symbol.X), (1, Symbol.O), (2, Symbol.X), (3, Symbol.O),
        (4, Symbol.O), (5, Symbol.X), (6, Symbol.O), (8, Symbol.X)]).get ((7 : Fin 9).val : Int) =
      some none ∧
    (∀ i : Int, (Board.new.makeMoves [(0, Symbol.X), (1, Symbol.O), (2, Symbol.X), (3, Symbol.O),
        (4, Symbol.O), (5, Symbol.X), (6, Symbol.O), (8, Symbol.X)]).get i = some none →
      i = ((7 : Fin 9).val : Int)) ∧
    (7 : Fin 9) ∈ [3, 3, 0, 8, 7, 2] ∧
    ∃ w, (AIPlayer "AI Player" Symbol.X).takeTurn
        (Board.new.makeMoves [(0, Symbol.X), (1, Symbol.O), (2, Symbol.X), (3, Symbol.O),
          (4, Symbol.O), (5, Symbol.X), (6, Symbol.O), (8, Symbol.X)])
        ⟨[], [3, 3, 0, 8, 7, 2], []⟩ =
      some (((7 : Fin 9).val : Int),
        ((Board.new.makeMoves [(0, Symbol.X), (1, Symbol.O), (2, Symbol.X), (3, Symbol.O),
          (4, Symbol.O), (5, Symbol.X), (6, Symbol.O), (8, Symbol.X)]).makeMove
          ((7 : Fin 9).val : Int) Symbol.X).2, w) := by
  have honly : ∀ i : Int, (Board.new.makeMoves [(0, Symbol.X), (1, Symbol.O), (2, Symbol.X),
      (3, Symbol.O), (4, Symbol.O), (5, Symbol.X), (6, Symbol.O), (8, Symbol.X)]).get i =
        some none → i = ((7 : Fin 9).val : Int) := by
    intro i hi
    obtain ⟨h0, hlt⟩ := Board.get_lt_length hi
    have hlen : (Board.new.makeMoves [(0, Symbol.X), (1, Symbol.O), (2, Symbol.X),
      (3, Symbol.O), (4, Symbol.O), (5, Symbol.X), (6, Symbol.O), (8, Symbol.X)]).board.length
        = 9 := by decide
    rw [hlen] at hlt
    have h8 : i ≤ 8 := by omega
    interval_cases i <;> first | rfl | (revert hi; decide)
  exact ⟨by decide, honly, by decide,
    (aiPlayer_takeTurn_first_open_sample "AI Player" Symbol.X _ [] [3, 3, 0, 8, 7, 2] []).2
      7 (by decide) honly (by decide)⟩

/-! ## One move per turn -/

theorem AIPlayer.findMove_range (symbol : Symbol) (b : Board) (random : List (Fin 9))
    {m : Int} {b' : Board} {rest : List (Fin 9)}
    (h : AIPlayer.findMove symbol random b = some (m, b', rest)) : 0 ≤ m ∧ m ≤ 8 := by
  induction random with
  | nil => cases h
  | cons r tail ih =>
    rw [AIPlayer.findMove_cons] at h
    split at h
    · cases h
      have := r.isLt
      omega
    · exact ih h

theorem AIPlayer.takeTurn_range (name : String) (symbol : Symbol) {b : Board} {w : World}
    {m : Int} {b' : Board} {w' : World}
    (h : AIPlayer.takeTurn name symbol b w = some (m, b', w')) : 0 ≤ m ∧ m ≤ 8 := by
  unfold AIPlayer.takeTurn at h
  dsimp only at h
  split at h
  · cases h
  · rename_i move board random hfind
    cases h
    exact AIPlayer.findMove_range symbol b _ hfind

/-- C12: whenever `HumanPlayer.takeTurn` or `AIPlayer.takeTurn` resolves with position
`m`, the board after the call is the board before it with `makeMove(m, symbol)`
applied once and successfully: `m` is in `0..8`, cell `m` was Empty before and
holds the player's own symbol after, every other cell is as before, and the
number of cells is the same.  The rejected attempts of the call left no trace
on the board. -/
theorem takeTurn_applies_exactly_one_move (name : String) (symbol : Symbol) (b : Board)
    (w : World) (m : Int) (b' : Board) (w' : World)
    (h : (HumanPlayer name symbol).takeTurn b w = some (m, b', w') ∨
         (AIPlayer name symbol).takeTurn b w = some (m, b', w')) :
    0 ≤ m ∧ m ≤ 8 ∧ b.get m = some none ∧ b'.get m = some (some symbol) ∧
    (∀ q : Int, q ≠ m → b'.get q = b.get q) ∧ b'.board.length = b.board.length ∧
    b.makeMove m symbol = (true, b') := by
  have hmove : b.makeMove m symbol = (true, b') ∧ 0 ≤ m ∧ m ≤ 8 := by
    rcases h with h | h
    · exact HumanPlayer.askForMove_resolved name symbol b w.stdin w.random w.out h
    · exact ⟨aiPlayer_movesOnce name symbol b w m b' w' h, AIPlayer.takeTurn_range name symbol h⟩
  obtain ⟨hmk, h0, h8⟩ := hmove
  obtain ⟨hcell, hnew, hframe, hlen⟩ := Board.makeMove_true_spec hmk
  exact ⟨h0, h8, hcell, hnew, hframe, hlen, hmk⟩

theorem takeTurn_applies_exactly_one_move_witness :
    ((HumanPlayer "Human Player" Symbol.O).takeTurn (Board.new.makeMoves [(4, Symbol.X)])
        ⟨["4", "oops", "6", "1"], [], []⟩ =
      some (6, ⟨[none, none, none, none, some Symbol.X, none, some Symbol.O, none, none]⟩,
        ⟨["1"], [], [Msg.humanTurn "Human Player" Symbol.O, Msg.invalidInput,
          Msg.humanTurn "Human Player" Symbol.O, Msg.positionTaken,
          Msg.humanTurn "Human Player" Symbol.O]⟩) ∧
      (⟨[none, none, none, none, some Symbol.X, none, some Symbol.O, none, none]⟩ : Board).get 6 =
        some (some Symbol.O)) ∧
    ((AIPlayer "AI Player" Symbol.X).takeTurn (Board.new.makeMoves [(4, Symbol.O)])
        ⟨[], [4, 4, 2, 5], []⟩ =
      some (2, ⟨[none, none, some Symbol.X, none, some Symbol.O, none, none, none, none]⟩,
        ⟨[], [5], [Msg.aiChose "AI Player" 2, Msg.aiTurn "AI Player" Symbol.X]⟩) ∧
      (⟨[none, none, some Symbol.X, none, some Symbol.O, none, none, none, none]⟩ : Board).get 2 =
        some (some Symbol.X)) :=
  ⟨⟨by decide,
    (takeTurn_applies_exactly_one_move "Human Player" Symbol.O _ _ 6 _ _
      (Or.inl (by decide : (HumanPlayer "Human Player" Symbol.O).takeTurn
        (Board.new.makeMoves [(4, Symbol.X)]) ⟨["4", "oops", "6", "1"], [], []⟩ =
        some (6, ⟨[none, none, none, none, some Symbol.X, none, some Symbol.O, none, none]⟩,
          ⟨["1"], [], [Msg.humanTurn "Human Player" Symbol.O, Msg.invalidInput,
            Msg.humanTurn "Human Player" Symbol.O, Msg.positionTaken,
            Msg.humanTurn "Human Player" Symbol.O]⟩)))).2.2.2.1⟩,
   ⟨by decide,
    (takeTurn_applies_exactly_one_move "AI Player" Symbol.X _ _ 2 _ _
      (Or.inr (by decide : (AIPlayer "AI Player" Symbol.X).takeTurn
        (Board.new.makeMoves [(4, Symbol.O)]) ⟨[], [4, 4, 2, 5], []⟩ =
        some (2, ⟨[none, none, some Symbol.X, none, some Symbol.O, none, none, none, none]⟩,
          ⟨[], [5], [Msg.aiChose "AI Player" 2, Msg.aiTurn "AI Player" Symbol.X]⟩)))).2.2.2.1⟩⟩

/-! ## Counting moves -/

theorem Board.occupied_makeMove_true {b b' : Board} {m : Int} {s : Symbol}
    (h : b.makeMove m s = (true, b')) : b'.occupied = b.occupied + 1 := by
  have h1 : (b.makeMove m s).1 = true := by rw [h]
  have hcell := (Board.makeMove_fst_iff b m s).mp h1
  obtain ⟨h0, hlt⟩ := Board.get_lt_length hcell
  have hget : b.board[m.toNat]? = some none := by simpa [Board.get, h0] using hcell
  have helem : b.board[m.toNat] = none := by
    have := List.getElem?_eq_getElem hlt
    rw [this] at hget
    exact Option.some.inj hget
  have hb' : b' = ⟨b.board.set m.toNat (some s)⟩ := by
    have h2 : (b.makeMove m s).2 = b' := by rw [h]
    rw [← h2]
    simp [Board.makeMove, hcell]
  rw [hb']
  unfold Board.occupied
  rw [List.countP_set _ _ _ _ hlt, helem]
  simp

theorem Board.makeMove_of_fst_false {b : Board} {p : Int} {s : Symbol}
    (h : (b.makeMove p s).1 = false) : (b.makeMove p s).2 = b := by
  unfold Board.makeMove at h ⊢
  split
  · rename_i hc
    simp [hc] at h
  · rfl

theorem Board.occupied_makeMoves (ms : List (Int × Symbol)) (b : Board) :
    (b.makeMoves ms).occupied = b.occupied + b.successes ms := by
  induction ms generalizing b with
  | nil => rfl
  | cons m rest ih =>
    obtain ⟨p, s⟩ := m
    simp only [Board.makeMoves, Board.successes]
    rw [ih]
    cases hfst : (b.makeMove p s).1 with
    | true =>
      rw [Board.occupied_makeMove_true (Board.makeMove_eq_of_fst hfst)]
      simp
      omega
    | false =>
      rw [Board.makeMove_of_fst_false hfst]
      simp

theorem Board.isFull_iff_occupied (b : Board) :
    b.isFull = true ↔ b.occupied = b.board.length := by
  unfold Board.isFull Board.occupied
  rw [List.all_eq_true, List.countP_eq_length]

theorem Board.occupied_le (b : Board) : b.occupied ≤ b.board.length :=
  List.countP_le_length _

/-- C18: start from a fresh board and call `makeMove` any number of times, with any
integer positions and symbols; let `n` be the number of calls that returned
true.  Then the board has exactly `n` non-Empty cells, `n` is at most 9, and
`isFull` is false as long as `n < 9` and true exactly when `n = 9`. -/
theorem occupied_cells_count_successful_moves (ms : List (Int × Symbol)) :
    (Board.new.makeMoves ms).occupied = Board.new.successes ms ∧
    Board.new.successes ms ≤ 9 ∧
    ((Board.new.makeMoves ms).isFull = false ↔ Board.new.successes ms < 9) ∧
    ((Board.new.makeMoves ms).isFull = true ↔ Board.new.successes ms = 9) := by
  have hocc : (Board.new.makeMoves ms).occupied = Board.new.successes ms := by
    rw [Board.occupied_makeMoves]
    have h0 : Board.new.occupied = 0 := by decide
    omega
  have hlen : (Board.new.makeMoves ms).board.length = 9 := by
    rw [Board.length_makeMoves]; rfl
  have hle := Board.occupied_le (Board.new.makeMoves ms)
  rw [hlen, hocc] at hle
  have hfull := Board.isFull_iff_occupied (Board.new.makeMoves ms)
  rw [hlen, hocc] at hfull
  refine ⟨hocc, hle, ?_, hfull⟩
  constructor
  · intro hf
    have hne : ¬ Board.new.successes ms = 9 := by
      intro h9
      rw [hfull.mpr h9] at hf
      cases hf
    omega
  · intro hlt
    cases hf : (Board.new.makeMoves ms).isFull with
    | false => rfl
    | true =>
      have := hfull.mp hf
      omega

/-! ## What a method call may change -/

theorem Board.calls_eq_makeMoves (cs : List BoardCall) (b : Board) :
    b.calls cs = b.makeMoves (BoardCall.moves cs) := by
  induction cs generalizing b with
  | nil => rfl
  | cons c rest ih =>
    cases c <;> simp only [Board.calls, Board.call, BoardCall.moves, Board.makeMoves] <;>
      exact ih _

/-- C20: a successful `makeMove(p, s)`, that is, one at a position `p` whose cell is
Empty, changes cell `p` only: every cell `q` other than `p` holds afterwards what
it held before, and the number of cells is unchanged.  The methods `checkWin`
and `isFull` leave the board as it is, so the board after any sequence of method
calls is the one its `makeMove` calls alone produce. -/
theorem makeMove_changes_one_cell (b : Board) :
    (∀ (p : Int) (s : Symbol), b.get p = some none →
      (b.makeMove p s).1 = true ∧
      (∀ q : Int, q ≠ p → (b.makeMove p s).2.get q = b.get q) ∧
      (b.makeMove p s).2.board.length = b.board.length) ∧
    b.call BoardCall.checkWin = b ∧ b.call BoardCall.isFull = b ∧
    (∀ cs : List BoardCall, b.calls cs = b.makeMoves (BoardCall.moves cs)) := by
  refine ⟨?_, rfl, rfl, fun cs => Board.calls_eq_makeMoves cs b⟩
  intro p s hcell
  exact ⟨(Board.makeMove_fst_iff b p s).mpr hcell,
    fun q hq => Board.get_makeMove_of_ne b s hq, Board.length_makeMove b p s⟩

theorem makeMove_changes_one_cell_witness :
    (Board.new.makeMoves [(0, Symbol.X), (4, Symbol.O)]).get 8 = some none ∧
    (8 : Int) ≠ 0 ∧
    ((Board.new.makeMoves [(0, Symbol.X), (4, Symbol.O)]).makeMove 8 Symbol.X).2.get 0 =
      (Board.new.makeMoves [(0, Symbol.X), (4, Symbol.O)]).get 0 :=
  ⟨by decide, by decide,
   ((makeMove_changes_one_cell (Board.new.makeMoves [(0, Symbol.X), (4, Symbol.O)])).1
      8 Symbol.X (by decide)).2.1 0 (by decide)⟩

/-! ## The states the game loop goes through -/

theorem Run.after_succ (r : Run) (n : Nat) :
    r.after (n + 1) =
      match r.after n with
      | none => none
      | some r' => if r'.continues then r'.turn else none := rfl

theorem Run.after_succ_head (r : Run) (n : Nat) :
    r.after (n + 1) =
      if r.continues then
        match r.turn with
        | none => none
        | some r' => r'.after n
      else none := by
  induction n with
  | zero =>
    rw [Run.after_succ]
    simp only [Run.after]
    cases r.continues <;> cases r.turn <;> rfl
  | succ n ih =>
    rw [Run.after_succ, ih]
    by_cases hc : r.continues = true
    · simp only [hc, if_true]
      cases hturn : r.turn with
      | none => rfl
      | some r1 =>
        simp only
        rw [Run.after_succ]
    · simp only [hc, if_false]
      rfl

theorem Run.after_of_step {r r0 r' : Run} {n : Nat} (h : r.after n = some r0)
    (hc : r0.continues = true) (hturn : r0.turn = some r') : r.after (n + 1) = some r' := by
  rw [Run.after_succ, h]
  simp only [hc, if_true, hturn]

theorem Run.after_succ_inv {r r' : Run} {n : Nat} (h : r.after (n + 1) = some r') :
    ∃ r0, r.after n = some r0 ∧ r0.continues = true ∧ r0.turn = some r' := by
  rw [Run.after_succ] at h
  split at h
  · cases h
  · rename_i r0 h0
    split at h
    · rename_i hc
      exact ⟨r0, h0, hc, h⟩
    · cases h

theorem Game.loop_eq_some {fuel : Nat} {r r' : Run} (h : Game.loop fuel r = some r') :
    ∃ n, n ≤ fuel ∧ r.after n = some r' ∧ r'.continues = false := by
  induction fuel generalizing r with
  | zero =>
    unfold Game.loop at h
    split at h
    · cases h
    · rename_i hc
      cases h
      exact ⟨0, Nat.le_refl 0, rfl, by simpa using hc⟩
  | succ fuel ih =>
    unfold Game.loop at h
    split at h
    · rename_i hc
      split at h
      · cases h
      · rename_i r1 hturn
        obtain ⟨n, hn, hafter, hstop⟩ := ih h
        refine ⟨n + 1, Nat.succ_le_succ hn, ?_, hstop⟩
        rw [Run.after_succ_head]
        simp only [hc, if_true, hturn]
        exact hafter
    · rename_i hc
      cases h
      exact ⟨0, Nat.zero_le _, rfl, by simpa using hc⟩

theorem Game.start_eq_some {g : Game} {fuel : Nat} {w : World} {r : Run}
    (h : g.start fuel w = some r) :
    ∃ n r0, n ≤ fuel ∧ (Run.init g w).after n = some r0 ∧ r0.continues = false ∧
      r.game = r0.game ∧ r.winner = r0.winner ∧ r.turns = r0.turns ∧
      r.reported = some (match r0.winner with
                         | some winner => Msg.wins winner
                         | none => Msg.draw) := by
  unfold Game.start at h
  split at h
  · cases h
  · rename_i r0 hloop
    obtain ⟨n, hn, hafter, hstop⟩ := Game.loop_eq_some hloop
    cases h
    exact ⟨n, r0, hn, hafter, hstop, rfl, rfl, rfl, rfl⟩

theorem Run.turn_spec {r r' : Run} (h : r.turn = some r') :
    ∃ p m w', r.game.currentPlayer = some p ∧
      p.takeTurn r.game.board (r.world.log (Msg.display r.game.board.board)) =
        some (m, r'.game.board, w') ∧
      r'.game.players = r.game.players ∧
      r'.game.currentPlayerIndex = 1 - r.game.currentPlayerIndex ∧
      r'.winner = r'.game.board.checkWin ∧
      r'.turns = (r.game.currentPlayerIndex, m) :: r.turns ∧
      r'.world = w' := by
  unfold Run.turn at h
  dsimp only at h
  split at h
  · cases h
  · rename_i p hp
    split at h
    · cases h
    · rename_i move board w' htake
      cases h
      exact ⟨p, move, w', hp, htake, rfl, rfl, rfl, rfl, rfl⟩

theorem Run.sound_init (player1 player2 : Player) (w : World) :
    Run.Sound player1 player2 0 (Run.init (Game.new player1 player2) w) := by
  refine ⟨rfl, rfl, ?_, rfl, rfl⟩
  show none = Board.new.checkWin
  decide

theorem Run.sound_turn {player1 player2 : Player} {n : Nat} {r r' : Run}
    (hs : Run.Sound player1 player2 n r) (h : r.turn = some r') :
    Run.Sound player1 player2 (n + 1) r' := by
  obtain ⟨hpl, hidx, _, hcount, horder⟩ := hs
  obtain ⟨p, m, w', _, _, hpl', hidx', hwin', hturns', _⟩ := Run.turn_spec h
  refine ⟨hpl'.trans hpl, ?_, hwin', ?_, ?_⟩
  · rw [hidx', hidx]
    omega
  · rw [hturns', List.length_cons, hcount]
  · rw [hturns', List.map_cons, horder, List.range_succ, List.map_append, List.reverse_append,
      hidx]
    rfl

theorem Run.sound_after (player1 player2 : Player) (w : World) {n : Nat} {r : Run}
    (h : (Run.init (Game.new player1 player2) w).after n = some r) :
    Run.Sound player1 player2 n r := by
  induction n generalizing r with
  | zero =>
    cases h
    exact Run.sound_init player1 player2 w
  | succ n ih =>
    obtain ⟨r0, h0, _, hturn⟩ := Run.after_succ_inv h
    exact Run.sound_turn (ih h0) hturn

theorem Run.currentPlayer_of_sound {player1 player2 : Player} {n : Nat} {r : Run}
    (hs : Run.Sound player1 player2 n r) :
    r.game.currentPlayer = some (if n % 2 = 0 then player1 else player2) := by
  obtain ⟨hpl, hidx, _, _, _⟩ := hs
  unfold Game.currentPlayer
  rw [hpl, hidx]
  rcases Nat.mod_two_eq_zero_or_one n with h | h <;> simp [h]

theorem Run.boardOk_turn {player1 player2 : Player} (h1 : player1.MovesOnce)
    (h2 : player2.MovesOnce) {n : Nat} {r r' : Run} (hs : Run.Sound player1 player2 n r)
    (hb : Run.BoardOk n r) (h : r.turn = some r') :
    Run.BoardOk (n + 1) r' ∧
    ∃ m, r'.turns = (r.game.currentPlayerIndex, m) :: r.turns ∧
      r.game.board.makeMove m (if n % 2 = 0 then player1 else player2).symbol =
        (true, r'.game.board) := by
  obtain ⟨p, m, w', hp, htake, _, _, _, hturns', _⟩ := Run.turn_spec h
  rw [Run.currentPlayer_of_sound hs] at hp
  have hp' : p = if n % 2 = 0 then player1 else player2 := (Option.some.inj hp).symm
  have hmoves : p.MovesOnce := by
    rw [hp']
    split
    · exact h1
    · exact h2
  have hmk := hmoves _ _ _ _ _ htake
  obtain ⟨_, _, _, hlen⟩ := Board.makeMove_true_spec hmk
  refine ⟨⟨hlen.trans hb.1, ?_⟩, m, hturns', ?_⟩
  · rw [Board.occupied_makeMove_true hmk, hb.2]
  · rw [← hp']
    exact hmk

theorem Run.boardOk_init (player1 player2 : Player) (w : World) :
    Run.BoardOk 0 (Run.init (Game.new player1 player2) w) := by
  refine ⟨rfl, ?_⟩
  show Board.new.occupied = 0
  decide

theorem Run.boardOk_after {player1 player2 : Player} (h1 : player1.MovesOnce)
    (h2 : player2.MovesOnce) (w : World) {n : Nat} {r : Run}
    (h : (Run.init (Game.new player1 player2) w).after n = some r) : Run.BoardOk n r := by
  induction n generalizing r with
  | zero =>
    cases h
    refine ⟨rfl, ?_⟩
    show Board.new.occupied = 0
    decide
  | succ n ih =>
    obtain ⟨r0, h0, _, hturn⟩ := Run.after_succ_inv h
    exact (Run.boardOk_turn h1 h2 (Run.sound_after player1 player2 w h0) (ih h0) hturn).1

/-! ## Lines on the board after a move -/

theorem Board.checkWinLoop_eq_some {b : Board} {ts : List (Int × Int × Int)} {s : Symbol}
    (h : b.checkWinLoop ts = some s) : ∃ t ∈ ts, b.lineOf s t := by
  induction ts with
  | nil => cases h
  | cons t rest ih =>
    by_cases hl : ∃ u, b.lineOf u t
    · obtain ⟨u, hu⟩ := hl
      rw [Board.checkWinLoop_cons_of_line b rest hu] at h
      cases h
      exact ⟨t, List.mem_cons_self _ _, hu⟩
    · rw [Board.checkWinLoop_cons_of_no_line b rest hl] at h
      obtain ⟨t', ht', hline⟩ := ih h
      exact ⟨t', List.mem_cons_of_mem _ ht', hline⟩

theorem Board.lineOf_after_move {b b' : Board} {m : Int} {s : Symbol}
    (hmk : b.makeMove m s = (true, b')) {t : Int × Int × Int} {s' : Symbol}
    (hno : ¬ ∃ u, b.lineOf u t) (hline : b'.lineOf s' t) : s' = s ∧ inTriple m t := by
  obtain ⟨_, hnew, hframe, _⟩ := Board.makeMove_true_spec hmk
  have hin : inTriple m t := by
    by_contra hout
    unfold inTriple at hout
    push_neg at hout
    obtain ⟨hx, hy, hz⟩ := hout
    apply hno
    refine ⟨s', ?_, ?_, ?_⟩
    · rw [← hframe _ (Ne.symm hx)]; exact hline.1
    · rw [← hframe _ (Ne.symm hy)]; exact hline.2.1
    · rw [← hframe _ (Ne.symm hz)]; exact hline.2.2
  refine ⟨?_, hin⟩
  have hcell : b'.get m = some (some s') := by
    rcases hin with h | h | h
    · rw [h]; exact hline.1
    · rw [h]; exact hline.2.1
    · rw [h]; exact hline.2.2
  rw [hnew] at hcell
  exact (Option.some.inj (Option.some.inj hcell)).symm

theorem Board.checkWinLoop_perm (b : Board) {ts ps : List (Int × Int × Int)}
    (hone : ∀ t1 ∈ ts, ∀ t2 ∈ ts, ∀ s1 s2, b.lineOf s1 t1 → b.lineOf s2 t2 → s1 = s2)
    (hp : ps.Perm ts) : b.checkWinLoop ps = b.checkWinLoop ts := by
  cases h : b.checkWinLoop ts with
  | none =>
    rw [Board.checkWinLoop_eq_none_iff] at h ⊢
    exact fun t ht => h t (hp.mem_iff.mp ht)
  | some s =>
    obtain ⟨t, ht, hline⟩ := Board.checkWinLoop_eq_some h
    cases h' : b.checkWinLoop ps with
    | none =>
      rw [Board.checkWinLoop_eq_none_iff] at h'
      exact absurd ⟨s, hline⟩ (h' t (hp.mem_iff.mpr ht))
    | some s' =>
      obtain ⟨t', ht', hline'⟩ := Board.checkWinLoop_eq_some h'
      rw [hone t' (hp.mem_iff.mp ht') t ht s' s hline' hline]

theorem Run.no_line_of_continues {player1 player2 : Player} {n : Nat} {r : Run}
    (hs : Run.Sound player1 player2 n r) (hc : r.continues = true) :
    r.winner = none ∧ r.game.board.checkWin = none ∧ r.game.board.isFull = false ∧
    ∀ t ∈ winPatterns, ¬ ∃ u, r.game.board.lineOf u t := by
  unfold Run.continues at hc
  simp only [Bool.and_eq_true, Bool.not_eq_true'] at hc
  have hw : r.winner = none := by
    cases hr : r.winner with
    | none => rfl
    | some s => rw [hr] at hc; exact absurd hc.1 (by simp)
  have hwin : r.game.board.checkWin = none := by rw [← hs.2.2.1]; exact hw
  exact ⟨hw, hwin, hc.2, (Board.checkWinLoop_eq_none_iff _ _).mp hwin⟩

theorem Run.lines_after_turn {player1 player2 : Player} (h1 : player1.MovesOnce)
    (h2 : player2.MovesOnce) (w : World) {n : Nat} {r' : Run}
    (h : (Run.init (Game.new player1 player2) w).after (n + 1) = some r') :
    ∃ r m, (Run.init (Game.new player1 player2) w).after n = some r ∧
      r.continues = true ∧ r.turn = some r' ∧
      r'.turns = (r.game.currentPlayerIndex, m) :: r.turns ∧
      r.game.board.makeMove m (if n % 2 = 0 then player1 else player2).symbol =
        (true, r'.game.board) ∧
      ∀ t ∈ winPatterns, ∀ s, r'.game.board.lineOf s t →
        s = (if n % 2 = 0 then player1 else player2).symbol ∧ inTriple m t := by
  obtain ⟨r, h0, hc, hturn⟩ := Run.after_succ_inv h
  have hs := Run.sound_after player1 player2 w h0
  have hb := Run.boardOk_after h1 h2 w h0
  obtain ⟨_, m, hturns, hmk⟩ := Run.boardOk_turn h1 h2 hs hb hturn
  obtain ⟨_, _, _, hno⟩ := Run.no_line_of_continues hs hc
  exact ⟨r, m, h0, hc, hturn, hturns, hmk,
    fun t ht s hline => Board.lineOf_after_move hmk (hno t ht) hline⟩

/-- C13: in every state the game loop reaches from a new game, with players that each
apply exactly one valid move of their own symbol per turn, at most one symbol
occupies a fully matched triple.  Hence `checkWin` gives the same result in
whatever order the eight triples are examined. -/
theorem single_winner_on_reachable_boards (player1 player2 : Player)
    (h1 : player1.MovesOnce) (h2 : player2.MovesOnce) (w : World) (n : Nat) (r : Run)
    (hreach : (Run.init (Game.new player1 player2) w).after n = some r) :
    (∀ t1 ∈ winPatterns, ∀ t2 ∈ winPatterns, ∀ s1 s2,
      r.game.board.lineOf s1 t1 → r.game.board.lineOf s2 t2 → s1 = s2) ∧
    (∀ ps : List (Int × Int × Int), ps.Perm winPatterns →
      r.game.board.checkWinLoop ps = r.game.board.checkWin) := by
  have hone : ∀ t1 ∈ winPatterns, ∀ t2 ∈ winPatterns, ∀ s1 s2,
      r.game.board.lineOf s1 t1 → r.game.board.lineOf s2 t2 → s1 = s2 := by
    cases n with
    | zero =>
      cases hreach
      intro t1 ht1 _ _ s1 _ hl1 _
      have hnone : Board.new.checkWin = none := by decide
      exact absurd ⟨s1, hl1⟩ ((Board.checkWinLoop_eq_none_iff _ _).mp hnone t1 ht1)
    | succ n =>
      obtain ⟨_, _, _, _, _, _, _, hlines⟩ := Run.lines_after_turn h1 h2 w hreach
      intro t1 ht1 t2 ht2 s1 s2 hl1 hl2
      rw [(hlines t1 ht1 s1 hl1).1, (hlines t2 ht2 s2 hl2).1]
  exact ⟨hone, fun ps hp => Board.checkWinLoop_perm _ hone hp⟩

theorem single_winner_on_reachable_boards_witness :
    player1.MovesOnce ∧ player2.MovesOnce ∧
    ∃ r, (Run.init game ⟨["3", "4"], [0, 1, 2], []⟩).after 5 = some r ∧
      r.game.board.checkWinLoop winPatterns.reverse = r.game.board.checkWin ∧
      r.game.board.checkWin = some Symbol.X :=
  ⟨aiPlayer_movesOnce _ _, humanPlayer_movesOnce _ _, _, rfl,
   (single_winner_on_reachable_boards player1 player2 (aiPlayer_movesOnce _ _)
      (humanPlayer_movesOnce _ _) ⟨["3", "4"], [0, 1, 2], []⟩ 5 _ rfl).2 winPatterns.reverse
      (List.reverse_perm winPatterns),
   by decide⟩

/-! ## When `takeTurn` is called -/

theorem Board.exists_empty_of_not_full {b : Board} (h : b.isFull = false) :
    ∃ k : Nat, k < b.board.length ∧ b.get (k : Int) = some none := by
  unfold Board.isFull at h
  have hex : ∃ x ∈ b.board, ¬ (x != none) = true := by
    by_contra hno
    push_neg at hno
    have : b.board.all (fun cell => cell != none) = true := List.all_eq_true.mpr hno
    rw [this] at h
    cases h
  obtain ⟨x, hx, hxn⟩ := hex
  have hx0 : x = none := by simpa using hxn
  subst hx0
  obtain ⟨k, hk, hget⟩ := List.getElem_of_mem hx
  refine ⟨k, hk, ?_⟩
  simp [Board.get, List.getElem?_eq_getElem hk, hget]

/-- C14: the loop of `Game.start` calls `takeTurn` only from a state in which its
condition holds.  In every such state reached from a new game, whoever the
players are, the winner recorded from the previous turn is none, `checkWin` of
the shared board is none, the board is not full, and it has an Empty cell, at
which `makeMove` succeeds for any symbol; the player asked is one of the two
given to the constructor. -/
theorem takeTurn_called_on_open_board (player1 player2 : Player) (w : World) (n : Nat)
    (r : Run) (hreach : (Run.init (Game.new player1 player2) w).after n = some r)
    (hcall : r.continues = true) :
    r.winner = none ∧ r.game.board.checkWin = none ∧ r.game.board.isFull = false ∧
    (∃ i : Int, r.game.board.get i = some none ∧
      ∀ s, (r.game.board.makeMove i s).1 = true) ∧
    r.game.currentPlayer = some (if n % 2 = 0 then player1 else player2) := by
  have hs := Run.sound_after player1 player2 w hreach
  obtain ⟨hw, hwin, hfull, _⟩ := Run.no_line_of_continues hs hcall
  obtain ⟨k, _, hk⟩ := Board.exists_empty_of_not_full hfull
  exact ⟨hw, hwin, hfull,
    ⟨(k : Int), hk, fun s => (Board.makeMove_fst_iff _ _ s).mpr hk⟩,
    Run.currentPlayer_of_sound hs⟩

theorem takeTurn_called_on_open_board_witness :
    ∃ r, (Run.init game ⟨["1", "4", "3"], [0, 2, 7, 5], []⟩).after 6 = some r ∧
      r.continues = true ∧
      r.winner = none ∧ r.game.board.checkWin = none ∧ r.game.board.isFull = false ∧
      (∃ i : Int, r.game.board.get i = some none ∧
        ∀ s, (r.game.board.makeMove i s).1 = true) ∧
      r.game.currentPlayer = some (if 6 % 2 = 0 then player1 else player2) :=
  ⟨_, rfl, by decide,
   takeTurn_called_on_open_board player1 player2 ⟨["1", "4", "3"], [0, 2, 7, 5], []⟩ 6 _ rfl
     (by decide)⟩

/-! ## Alternation of the players -/

/-- C16: in every run of `Game.start` on a new game, whoever the players are, the
current-player index starts at 0; at the head of the loop after `n` turns it is
`n mod 2`, so the next turn is asked of `players[n mod 2]`; the turns on record,
in order, were asked of the indices 0, 1, 0, 1, ...; and a turn starts from the
state in which the turn before it ended, so no two calls of `takeTurn` overlap
and the index changes from each turn to the next. -/
theorem turns_alternate (player1 player2 : Player) (w : World) (n : Nat) (r : Run)
    (hreach : (Run.init (Game.new player1 player2) w).after n = some r) :
    (Run.init (Game.new player1 player2) w).game.currentPlayerIndex = 0 ∧
    r.game.currentPlayerIndex = ((n % 2 : Nat) : Int) ∧
    r.game.currentPlayer = some (if n % 2 = 0 then player1 else player2) ∧
    r.turns.length = n ∧
    r.turns.reverse.map Prod.fst = (List.range n).map (fun k => ((k % 2 : Nat) : Int)) ∧
    (∀ r', (Run.init (Game.new player1 player2) w).after (n + 1) = some r' →
      r.turn = some r' ∧ r'.game.currentPlayerIndex = 1 - r.game.currentPlayerIndex ∧
      r'.game.currentPlayerIndex ≠ r.game.currentPlayerIndex) := by
  have hs := Run.sound_after player1 player2 w hreach
  have hcur := Run.currentPlayer_of_sound hs
  obtain ⟨_, hidx, _, hcount, horder⟩ := hs
  refine ⟨rfl, hidx, hcur, hcount, ?_, ?_⟩
  · have hrev := congrArg List.reverse horder
    rw [List.reverse_reverse] at hrev
    rw [← hrev]
    simp
  · intro r' hnext
    obtain ⟨r0, h0, _, hturn⟩ := Run.after_succ_inv hnext
    rw [hreach] at h0
    cases h0
    obtain ⟨_, _, _, _, _, _, hidx', _⟩ := Run.turn_spec hturn
    refine ⟨hturn, hidx', ?_⟩
    rw [hidx', hidx]
    omega

theorem turns_alternate_witness :
    ∃ r, (Run.init game ⟨["1", "4", "7"], [0, 2, 5, 3], []⟩).after 5 = some r ∧
      r.game.currentPlayerIndex = ((5 % 2 : Nat) : Int) ∧
      r.turns.reverse.map Prod.fst = [0, 1, 0, 1, 0] ∧
      r.turns.reverse.map Prod.snd = [0, 1, 2, 4, 5] :=
  ⟨_, rfl,
   (turns_alternate player1 player2 ⟨["1", "4", "7"], [0, 2, 5, 3], []⟩ 5 _ rfl).2.1,
   (turns_alternate player1 player2 ⟨["1", "4", "7"], [0, 2, 5, 3], []⟩ 5 _ rfl).2.2.2.2.1,
   by decide⟩

/-! ## The turn index when the game stops -/

/-- C17, as stated, fails: in this run the last move (X at 6, completing the left column)
is made by the player with index 0, and when `Game.start` has stopped the
current-player index is 1, which is the other player. -/
theorem index_flipped_after_winning_move :
    ∃ r, game.start 9 ⟨["1", "2"], [0, 3, 6], []⟩ = some r ∧
      r.reported = some (Msg.wins Symbol.X) ∧
      r.turns.head? = some (0, 6) ∧
      r.game.currentPlayerIndex = 1 ∧
      r.game.currentPlayer.map (fun p => (p.name, p.symbol)) =
        some ("Human Player", Symbol.O) :=
  ⟨_, rfl, by decide⟩

/-- C17, amended: in `Game.start` the current-player index is flipped after every turn,
also after the one that ends the game.  When the game has stopped the index is
the number of turns taken mod 2, and it is not the index of the player who made
the final move but the other one. -/
theorem index_flips_after_every_turn (player1 player2 : Player) (fuel : Nat) (w : World)
    (r : Run) (hstop : (Game.new player1 player2).start fuel w = some r) :
    r.game.currentPlayerIndex = ((r.turnCount % 2 : Nat) : Int) ∧
    0 < r.turnCount ∧
    ∀ i m, r.turns.head? = some (i, m) →
      r.game.currentPlayerIndex = 1 - i ∧ r.game.currentPlayerIndex ≠ i := by
  obtain ⟨n, r0, _, hafter, hcont, hgame, _, hturns, _⟩ := Game.start_eq_some hstop
  have hs := Run.sound_after player1 player2 w hafter
  unfold Run.turnCount
  rw [hgame, hturns]
  refine ⟨by rw [hs.2.2.2.1]; exact hs.2.1, ?_, ?_⟩
  · rw [hs.2.2.2.1]
    cases n with
    | zero =>
      cases hafter
      have : (Run.init (Game.new player1 player2) w).continues = true := by
        show (!(none : Option Symbol).isSome && !Board.new.isFull) = true
        decide
      rw [this] at hcont
      cases hcont
    | succ n => exact Nat.succ_pos n
  · intro i m hhead
    cases n with
    | zero =>
      cases hafter
      cases hhead
    | succ n =>
      obtain ⟨r1, h1, _, hturn⟩ := Run.after_succ_inv hafter
      obtain ⟨_, m', _, _, _, _, hidx', _, hturns', _⟩ := Run.turn_spec hturn
      rw [hturns'] at hhead
      simp only [List.head?_cons, Option.some.injEq, Prod.mk.injEq] at hhead
      have hs1 := Run.sound_after player1 player2 w h1
      rw [hidx', ← hhead.1, hs1.2.1]
      constructor
      · rfl
      · omega

theorem index_flips_after_every_turn_witness :
    ∃ r, game.start 9 ⟨["1", "3", "5", "6"], [0, 2, 4, 7, 8], []⟩ = some r ∧
      r.turnCount = 9 ∧ r.turns.head? = some (0, 8) ∧
      r.game.currentPlayerIndex = 1 - 0 ∧ r.game.currentPlayerIndex ≠ 0 :=
  ⟨_, rfl, by decide, by decide,
   (index_flips_after_every_turn player1 player2 9
      ⟨["1", "3", "5", "6"], [0, 2, 4, 7, 8], []⟩ _ rfl).2.2 0 8 (by decide)⟩

/-! ## The winner is the last mover -/

/-- C19: in every run of `Game.start` on a new game with players that each apply
exactly one valid move of their own symbol per turn, whenever `checkWin` returns
a symbol `s` after a turn, `s` is the symbol of the player who took that turn
(the player with index `n mod 2` for the turn after `n` earlier ones), the cell
`m` that player just filled was Empty before and holds `s` now, and every
triple matched with `s`, so in particular the one `checkWin` stopped at,
contains `m`. -/
theorem winner_is_last_mover (player1 player2 : Player)
    (h1 : player1.MovesOnce) (h2 : player2.MovesOnce) (w : World) (n : Nat) (r' : Run)
    (hreach : (Run.init (Game.new player1 player2) w).after (n + 1) = some r')
    (s : Symbol) (hwin : r'.game.board.checkWin = some s) :
    s = (if n % 2 = 0 then player1 else player2).symbol ∧
    r'.winner = some s ∧
    ∃ r m, (Run.init (Game.new player1 player2) w).after n = some r ∧
      r.turn = some r' ∧
      r.game.currentPlayer = some (if n % 2 = 0 then player1 else player2) ∧
      r'.turns.head? = some (r.game.currentPlayerIndex, m) ∧
      r.game.board.get m = some none ∧ r'.game.board.get m = some (some s) ∧
      (∀ t ∈ winPatterns, r'.game.board.lineOf s t → inTriple m t) ∧
      (∃ t ∈ winPatterns, r'.game.board.lineOf s t ∧ inTriple m t) := by
  obtain ⟨r, m, h0, _, hturn, hturns, hmk, hlines⟩ := Run.lines_after_turn h1 h2 w hreach
  obtain ⟨t, ht, hline⟩ := Board.checkWinLoop_eq_some hwin
  have hsym := (hlines t ht s hline).1
  have hs' := Run.sound_after player1 player2 w hreach
  have hs := Run.sound_after player1 player2 w h0
  obtain ⟨hcell, hnew, _, _⟩ := Board.makeMove_true_spec hmk
  refine ⟨hsym, by rw [hs'.2.2.1, hwin], r, m, h0, hturn, Run.currentPlayer_of_sound hs, ?_,
    hcell, by rw [hsym]; exact hnew, fun u hu hl => (hlines u hu s hl).2,
    ⟨t, ht, hline, (hlines t ht s hline).2⟩⟩
  rw [hturns]
  rfl

theorem winner_is_last_mover_witness :
    player1.MovesOnce ∧ player2.MovesOnce ∧
    ∃ r', (Run.init game ⟨["3", "8", "6"], [4, 0, 1, 7], []⟩).after (6 + 1) = some r' ∧
      r'.game.board.checkWin = some Symbol.X ∧
      Symbol.X = (if 6 % 2 = 0 then player1 else player2).symbol ∧
      r'.winner = some Symbol.X ∧
      r'.turns.head? = some (0, 7) :=
  ⟨aiPlayer_movesOnce _ _, humanPlayer_movesOnce _ _, _, rfl, by decide,
   (winner_is_last_mover player1 player2 (aiPlayer_movesOnce _ _) (humanPlayer_movesOnce _ _)
      ⟨["3", "8", "6"], [4, 0, 1, 7], []⟩ 6 _ rfl Symbol.X (by decide)).1,
   (winner_is_last_mover player1 player2 (aiPlayer_movesOnce _ _) (humanPlayer_movesOnce _ _)
      ⟨["3", "8", "6"], [4, 0, 1, 7], []⟩ 6 _ rfl Symbol.X (by decide)).2.1,
   by decide⟩

/-! ## Termination -/

theorem AIPlayer.takeTurn_isSome (name : String) (symbol : Symbol) (b : Board) (w : World)
    (hex : ∃ r ∈ w.random, b.get (r.val : Int) = some none) :
    (AIPlayer.takeTurn name symbol b w).isSome = true := by
  obtain ⟨pre, r, post, hl, hpre, hr⟩ :=
    exists_first_split (fun x : Fin 9 => b.get (x.val : Int) = some none) w.random hex
  have hfind := AIPlayer.findMove_first symbol b pre r post hpre hr
  unfold AIPlayer.takeTurn
  simp only [World.log, hl, hfind]
  rfl

theorem AIPlayer.withSamples_movesOnce (name : String) (symbol : Symbol)
    (samples : List (Fin 9)) : (AIPlayer.withSamples name symbol samples).MovesOnce := by
  intro b w m b' w' h
  change (match AIPlayer.takeTurn name symbol b { w with random := samples } with
    | none => none
    | some (move, board, w') => some (move, board, { w' with random := w.random })) =
      some (m, b', w') at h
  split at h
  · cases h
  · rename_i move board w1 htake
    cases h
    exact aiPlayer_movesOnce name symbol b _ _ _ _ htake

theorem AIPlayer.withSamples_alwaysResolves (name : String) (symbol : Symbol)
    (samples : List (Fin 9)) (hall : ∀ i : Fin 9, i ∈ samples) :
    (AIPlayer.withSamples name symbol samples).AlwaysResolves := by
  intro b w hlen hfull
  obtain ⟨k, hk, hcell⟩ := Board.exists_empty_of_not_full hfull
  rw [hlen] at hk
  have hsome := AIPlayer.takeTurn_isSome name symbol b { w with random := samples }
    ⟨⟨k, hk⟩, hall _, hcell⟩
  change (match AIPlayer.takeTurn name symbol b { w with random := samples } with
    | none => none
    | some (move, board, w') => some (move, board, { w' with random := w.random })).isSome = true
  cases htake : AIPlayer.takeTurn name symbol b { w with random := samples } with
  | none => rw [htake] at hsome; cases hsome
  | some v => rfl

theorem Run.turn_isSome {player1 player2 : Player} (a1 : player1.AlwaysResolves)
    (a2 : player2.AlwaysResolves) {n : Nat} {r : Run} (hs : Run.Sound player1 player2 n r)
    (hb : Run.BoardOk n r) (hc : r.continues = true) : ∃ r', r.turn = some r' := by
  obtain ⟨_, _, hfull, _⟩ := Run.no_line_of_continues hs hc
  have hcur := Run.currentPlayer_of_sound hs
  have hres : (if n % 2 = 0 then player1 else player2).AlwaysResolves := by
    split
    · exact a1
    · exact a2
  have hsome := hres r.game.board (r.world.log (Msg.display r.game.board.board)) hb.1 hfull
  unfold Run.turn
  dsimp only
  rw [hcur]
  dsimp only
  cases htake : (if n % 2 = 0 then player1 else player2).takeTurn r.game.board
      (r.world.log (Msg.display r.game.board.board)) with
  | none => rw [htake] at hsome; cases hsome
  | some v => exact ⟨_, rfl⟩

theorem Game.loop_terminates {player1 player2 : Player} (h1 : player1.MovesOnce)
    (h2 : player2.MovesOnce) (a1 : player1.AlwaysResolves) (a2 : player2.AlwaysResolves)
    (fuel : Nat) {n : Nat} {r : Run} (hs : Run.Sound player1 player2 n r)
    (hb : Run.BoardOk n r) (hfuel : 9 ≤ n + fuel) : ∃ r', Game.loop fuel r = some r' := by
  induction fuel generalizing n r with
  | zero =>
    have hle := Board.occupied_le r.game.board
    rw [hb.1, hb.2] at hle
    have hfull : r.game.board.isFull = true := by
      rw [Board.isFull_iff_occupied, hb.1, hb.2]
      omega
    have hc : r.continues = false := by simp [Run.continues, hfull]
    exact ⟨r, by simp [Game.loop, hc]⟩
  | succ fuel ih =>
    by_cases hc : r.continues = true
    · obtain ⟨r1, hturn⟩ := Run.turn_isSome a1 a2 hs hb hc
      have hs1 := Run.sound_turn hs hturn
      have hb1 := (Run.boardOk_turn h1 h2 hs hb hturn).1
      obtain ⟨r', hloop⟩ := ih hs1 hb1 (by omega)
      refine ⟨r', ?_⟩
      unfold Game.loop
      simp only [hc, if_true, hturn]
      exact hloop
    · exact ⟨r, by simp [Game.loop, hc]⟩

/-- C15: for every pair of players that each apply exactly one valid move per turn
(their `takeTurn` resolves on every 9-cell board that is not full, having made
one successful `makeMove` with their own symbol), `Game.start` on a new game,
given room for 9 passes through its loop, stops: it takes at least one and at
most 9 turns and ends in exactly one of two ways, with a winner whose symbol it
reports, or with no winner on a full board, reporting a draw. -/
theorem start_terminates_within_nine_turns (player1 player2 : Player)
    (h1 : player1.MovesOnce) (h2 : player2.MovesOnce)
    (a1 : player1.AlwaysResolves) (a2 : player2.AlwaysResolves)
    (fuel : Nat) (hfuel : 9 ≤ fuel) (w : World) :
    ∃ r, (Game.new player1 player2).start fuel w = some r ∧
      1 ≤ r.turnCount ∧ r.turnCount ≤ 9 ∧
      ((∃ s, r.winner = some s ∧ r.game.board.checkWin = some s ∧
          r.reported = some (Msg.wins s)) ∨
        (r.winner = none ∧ r.game.board.checkWin = none ∧ r.game.board.isFull = true ∧
          r.reported = some Msg.draw)) ∧
      ¬ ((∃ s, r.reported = some (Msg.wins s)) ∧ r.reported = some Msg.draw) := by
  obtain ⟨r0, hloop⟩ := Game.loop_terminates h1 h2 a1 a2 fuel
    (Run.sound_init player1 player2 w) (Run.boardOk_init player1 player2 w) (by omega)
  have hstart : ∃ r, (Game.new player1 player2).start fuel w = some r := by
    unfold Game.start
    have hloop' : Game.loop fuel ⟨Game.new player1 player2, none, w.log Msg.starting, []⟩ =
        some r0 := hloop
    rw [hloop']
    exact ⟨_, rfl⟩
  obtain ⟨r, hr⟩ := hstart
  obtain ⟨n, r1, _, hafter, hcont, hgame, hwinner, hturns, hrep⟩ := Game.start_eq_some hr
  have hs := Run.sound_after player1 player2 w hafter
  have hb := Run.boardOk_after h1 h2 w hafter
  have hle := Board.occupied_le r1.game.board
  rw [hb.1, hb.2] at hle
  have hpos : 1 ≤ n := by
    cases n with
    | zero =>
      cases hafter
      have : (Run.init (Game.new player1 player2) w).continues = true := by
        show (!(none : Option Symbol).isSome && !Board.new.isFull) = true
        decide
      rw [this] at hcont
      cases hcont
    | succ n => exact Nat.succ_pos n
  refine ⟨r, hr, ?_, ?_, ?_, ?_⟩
  · unfold Run.turnCount
    rw [hturns, hs.2.2.2.1]
    exact hpos
  · unfold Run.turnCount
    rw [hturns, hs.2.2.2.1]
    exact hle
  · rw [hgame, hwinner, hrep]
    cases hw : r1.winner with
    | some s =>
      left
      exact ⟨s, rfl, by rw [← hs.2.2.1, hw], rfl⟩
    | none =>
      right
      have hfull : r1.game.board.isFull = true := by
        unfold Run.continues at hcont
        rw [hw] at hcont
        simpa using hcont
      exact ⟨rfl, by rw [← hs.2.2.1, hw], hfull, rfl⟩
  · rintro ⟨⟨s, hs1⟩, hd⟩
    rw [hs1] at hd
    cases hd

theorem start_terminates_within_nine_turns_witness :
    (AIPlayer.withSamples "first" Symbol.X [0, 1, 2, 3, 4, 5, 6, 7, 8]).MovesOnce ∧
    (AIPlayer.withSamples "second" Symbol.O [8, 7, 6, 5, 4, 3, 2, 1, 0]).MovesOnce ∧
    (AIPlayer.withSamples "first" Symbol.X [0, 1, 2, 3, 4, 5, 6, 7, 8]).AlwaysResolves ∧
    (AIPlayer.withSamples "second" Symbol.O [8, 7, 6, 5, 4, 3, 2, 1, 0]).AlwaysResolves ∧
    9 ≤ 9 ∧
    ∃ r, (Game.new (AIPlayer.withSamples "first" Symbol.X [0, 1, 2, 3, 4, 5, 6, 7, 8])
        (AIPlayer.withSamples "second" Symbol.O [8, 7, 6, 5, 4, 3, 2, 1, 0])).start 9
        ⟨[], [], []⟩ = some r ∧
      1 ≤ r.turnCount ∧ r.turnCount ≤ 9 ∧
      ((∃ s, r.winner = some s ∧ r.game.board.checkWin = some s ∧
          r.reported = some (Msg.wins s)) ∨
        (r.winner = none ∧ r.game.board.checkWin = none ∧ r.game.board.isFull = true ∧
          r.reported = some Msg.draw)) ∧
      ¬ ((∃ s, r.reported = some (Msg.wins s)) ∧ r.reported = some Msg.draw) :=
  ⟨AIPlayer.withSamples_movesOnce _ _ _, AIPlayer.withSamples_movesOnce _ _ _,
   AIPlayer.withSamples_alwaysResolves _ _ _ (by decide),
   AIPlayer.withSamples_alwaysResolves _ _ _ (by decide),
   Nat.le_refl 9,
   start_terminates_within_nine_turns _ _
     (AIPlayer.withSamples_movesOnce _ _ _) (AIPlayer.withSamples_movesOnce _ _ _)
     (AIPlayer.withSamples_alwaysResolves _ _ _ (by decide))
     (AIPlayer.withSamples_alwaysResolves _ _ _ (by decide)) 9 (Nat.le_refl 9) ⟨[], [], []⟩⟩

end TicTacToe
